import Mathlib

/-!
Shallow embedding of the eventlog bucket-chain index from
`src/eventlog/service.go` (package `eventlog`).

Records stored in the omniledger collection are modelled as three disjoint
partitions of a `State` (buckets, events, and the single head-pointer
record `theEventLog`), keyed by natural-number addresses standing for the
content-derived object IDs.  Timestamps are `Int` nanoseconds, exactly as
`Event.When` and `bucket.Start` are `int64` nanoseconds in the source.
Byte buffers that are decoded with `protobuf.Decode` are modelled by the
decode result: `Option Event` (`none` stands for undecodable bytes).
-/

namespace EventLog

/-- Error taxonomy: one constructor per distinct error return of
`service.go` (plus `indexMissing` for the sentinel error `errIndexMissing`
and `corruptChain` for a `prev`/event reference that does not resolve). -/
inductive Err where
  | deleteNotAllowed
  | invokeNotAllowed
  | expectedSpawn
  | missingEventArg
  | malformedRecord
  | timestampTooOld
  | timestampInFuture
  | indexMissing
  | corruptChain
  | notInclusionProof
  | wrongKey
  | notEnoughValues
  | skipchainIDRequired
  deriving DecidableEq

/-- An event record: `When` is an `int64` nanosecond timestamp, `Topic` the
exact-match filter key, `Content` the opaque payload. -/
structure Event where
  When : Int
  Topic : String
  Content : String
  deriving DecidableEq

/-- Modelled from the spec: the `bucket` struct is declared in a repository
file that is not under src (only its uses appear in `service.go`).  Per the
spec a bucket has `start` (signed 64-bit nanoseconds), `prev` (reference to
the preceding bucket's address, absent for the sentinel) and `event_refs`
(ordered event addresses). -/
structure Bucket where
  Start : Int
  Prev : Option Nat
  EventRefs : List Nat
  deriving DecidableEq

/-- Modelled from the spec: `bucket.isFirst` is declared outside src; per
the spec the sentinel is the unique bucket with `prev = none`, and it is
the unique terminal node of the chain. -/
def Bucket.isFirst (b : Bucket) : Bool :=
  b.Prev.isNone

/-- Association-list lookup by address; the first (most recently written)
binding wins, matching the key/value collection semantics. -/
def findVal (a : Nat) : List (Nat × α) → Option α
  | [] => none
  | (k, v) :: rest => if k = a then some v else findVal a rest

/-- Ledger state restricted to what the eventlog contract reads and
writes: the bucket records, the event records, and the head pointer. -/
structure State where
  buckets : List (Nat × Bucket)
  events : List (Nat × Event)
  head : Option Nat
  deriving DecidableEq

def State.empty : State :=
  ⟨[], [], none⟩

/-- Modelled from the spec: `eventLog.getBucketByID` is declared outside
src; it reads a bucket record by address from the collection view. -/
def getBucketByID (st : State) (a : Nat) : Option Bucket :=
  findVal a st.buckets

/-- Read an event record by address (the collection lookup inside
`getEventByID` of `service.go`). -/
def getEventByID (st : State) (a : Nat) : Option Event :=
  findVal a st.events

/-- Modelled from the spec: `eventLog.getLatestBucket` is declared outside
src; it reads the head pointer (signalling `IndexMissing` when absent) and
then the bucket it references. -/
def getLatestBucket (st : State) : Except Err (Nat × Bucket) :=
  match st.head with
  | none => .error .indexMissing
  | some h =>
    match getBucketByID st h with
    | none => .error .corruptChain
    | some b => .ok (h, b)

/-- The distinguished object ID of the per-instance head-pointer record
(`theEventLog` in the source). -/
def theEventLog : Nat := 0

inductive StateAction where
  | create
  | update
  deriving DecidableEq

/-- The value carried by a state change, routed by record kind: an event
record, a bucket record, or the head-pointer record (whose value is the
address of the new head bucket). -/
inductive SCValue where
  | ev : Event → SCValue
  | bk : Bucket → SCValue
  | ptr : Nat → SCValue
  deriving DecidableEq

/-- One omniledger state change emitted by the contract. -/
structure StateChange where
  action : StateAction
  objectID : Nat
  value : SCValue
  deriving DecidableEq

/-- Apply one state change to the modelled state.  New bindings are consed
in front, so lookups see the most recent write. -/
def applySc (st : State) (sc : StateChange) : State :=
  match sc.value with
  | .ev e => { st with events := (sc.objectID, e) :: st.events }
  | .bk b => { st with buckets := (sc.objectID, b) :: st.buckets }
  | .ptr a => { st with head := some a }

def applyScs (st : State) (scs : List StateChange) : State :=
  scs.foldl applySc st

/-- Number of nanoseconds in a second (`time.Second`). -/
def nanosPerSecond : Int := 1000000000

/-- The service's bucket age budget: `bucketMaxAge: 5 * time.Second` set in
`newService`. -/
def bucketMaxAge : Int := 5 * nanosPerSecond

/-- The spawn part of an instruction: its named arguments.  Each argument
value models the protobuf decode result of the carried bytes. -/
structure SpawnData where
  args : List (String × Option Event)
  deriving DecidableEq

/-- Named-argument lookup (`tx.Spawn.Args.Search`). -/
def argSearch (n : String) : List (String × Option Event) → Option (Option Event)
  | [] => none
  | (k, v) :: rest => if k = n then some v else argSearch n rest

/-- An omniledger instruction as seen by the contract: which of the
delete/invoke/spawn parts are present, the instruction's object ID, and the
two derived IDs `tx.DeriveID "bucket"` and `tx.DeriveID "catch-all"`. -/
structure Instruction where
  delete : Bool
  invoke : Bool
  spawn : Option SpawnData
  objectID : Nat
  bucketID : Nat
  catchAllID : Nat
  deriving DecidableEq

/-- `decodeAndCheckEvent` of `service.go`: decode the event buffer, then
reject a timestamp more than 5 seconds in the past, then reject a
timestamp in the future. -/
def decodeAndCheckEvent (eventBuf : Option Event) (now : Int) : Except Err Event :=
  match eventBuf with
  | none => .error .malformedRecord
  | some event =>
    if event.When < now - 5 * nanosPerSecond then .error .timestampTooOld
    else if now < event.When then .error .timestampInFuture
    else .ok event

/-- The backward walk of `contractFunction`: starting from the latest
bucket, follow `Prev` while the bucket is not the sentinel and its `Start`
exceeds the event timestamp; `isHead` records whether no step was taken.
The fuel argument only bounds the recursion: running out of fuel models
the walk never terminating on a cyclic chain, which cannot arise. -/
def walkBack (st : State) (when : Int) :
    Nat → Nat → Bucket → Bool → Except Err (Nat × Bucket × Bool)
  | 0, _, _, _ => .error .corruptChain
  | fuel + 1, bID, b, isHead =>
    if !b.isFirst && !(b.Start ≤ when) then
      match b.Prev with
      | none => .error .corruptChain
      | some p =>
        match getBucketByID st p with
        | none => .error .corruptChain
        | some b' => walkBack st when fuel p b' false
    else .ok (bID, b, isHead)

/-- `contractFunction` of `service.go`: validate the transaction shape,
decode and check the event, emit the event-record creation, then either
bootstrap the chain, create a new head bucket, or append to the bucket the
backward walk stopped at. -/
def contractFunction (st : State) (now : Int) (tx : Instruction) :
    Except Err (List StateChange) :=
  if tx.delete then .error .deleteNotAllowed
  else if tx.invoke then .error .invokeNotAllowed
  else
    match tx.spawn with
    | none => .error .expectedSpawn
    | some sp =>
      match argSearch "event" sp.args with
      | none => .error .missingEventArg
      | some eventBuf =>
        match decodeAndCheckEvent eventBuf now with
        | .error e => .error e
        | .ok event =>
          let scs0 : List StateChange :=
            [⟨.create, tx.objectID, .ev event⟩]
          match getLatestBucket st with
          | .error .indexMissing =>
            -- Bootstrap: create the catch-all bucket, then a first head
            -- bucket holding this event, then the head pointer.
            let sentinel : Bucket := ⟨0, none, []⟩
            let newb : Bucket := ⟨event.When, some tx.catchAllID, [tx.objectID]⟩
            .ok (scs0 ++
              [⟨.create, tx.catchAllID, .bk sentinel⟩,
               ⟨.create, tx.bucketID, .bk newb⟩,
               ⟨.create, theEventLog, .ptr tx.bucketID⟩])
          | .error e => .error e
          | .ok (bID0, b0) =>
            match walkBack st event.When (st.buckets.length + 1) bID0 b0 true with
            | .error e => .error e
            | .ok (bID, b, isHead) =>
              if isHead && bucketMaxAge < event.When - b.Start then
                let newb : Bucket := ⟨event.When, some bID, [tx.objectID]⟩
                .ok (scs0 ++
                  [⟨.create, tx.bucketID, .bk newb⟩,
                   ⟨.update, theEventLog, .ptr tx.bucketID⟩])
              else
                .ok (scs0 ++
                  [⟨.update, bID, .bk ⟨b.Start, b.Prev, b.EventRefs ++ [tx.objectID]⟩⟩])

/-- The IDs a creation transaction brings along: its object ID and the two
derived IDs used if new buckets are created. -/
structure TxIDs where
  objectID : Nat
  bucketID : Nat
  catchAllID : Nat
  deriving DecidableEq

/-- A well-formed creation transaction carrying one encoded event. -/
def mkSpawnTx (e : Event) (ids : TxIDs) : Instruction :=
  ⟨false, false, some ⟨[("event", some e)]⟩, ids.objectID, ids.bucketID, ids.catchAllID⟩

/-- One full insertion: run the contract on a creation transaction for `e`
and apply the emitted state changes atomically. -/
def insertEvent (st : State) (now : Int) (e : Event) (ids : TxIDs) : Except Err State :=
  (contractFunction st now (mkSpawnTx e ids)).map (applyScs st)

/-- A sequence of accepted insertions starting from the empty state.  Each
event is validated against `now = e.When` (which always passes the window
check); placement itself never reads the clock, so every reachable state
arises this way. -/
def insertAll : List (Event × TxIDs) → Except Err State :=
  List.foldl (fun acc x => acc.bind fun st => insertEvent st x.1.When x.1 x.2)
    (Except.ok State.empty)

/-- A search request: whether `req.ID.IsNull()` holds, the inclusive lower
bound `From`, the exclusive upper bound `To` (zero means "now"), and the
topic filter. -/
structure SearchRequest where
  idNull : Bool
  From : Int
  To : Int
  Topic : String
  deriving DecidableEq

structure SearchResponse where
  Events : List Event
  Truncated : Bool
  deriving DecidableEq

/-- The event filter applied inside the search loop:
`req.From <= ev.When && ev.When < req.To` and
`req.Topic == "" || req.Topic == ev.Topic`. -/
def eventMatch (lo hi : Int) (topic : String) (e : Event) : Bool :=
  decide (lo ≤ e.When) && decide (e.When < hi) &&
    (decide (topic = "") || decide (topic = e.Topic))

/-- The bucket-collection loop of `Search`: walk back from the latest
bucket; stop once `From > bEnd`; skip (but keep walking past) a bucket
with `To < b.Start`; stop after the first bucket; a `Prev` that does not
resolve is fatal.  Fuel only bounds the recursion, as in `walkBack`. -/
def collectBuckets (st : State) (lo hi : Int) :
    Nat → Int → Nat → Bucket → List (Nat × Bucket) → Except Err (List (Nat × Bucket))
  | 0, _, _, _, _ => .error .corruptChain
  | fuel + 1, bEnd, a, b, acc =>
    if bEnd < lo then .ok acc
    else
      let acc' := if hi < b.Start then acc else acc ++ [(a, b)]
      if b.isFirst then .ok acc'
      else
        match b.Prev with
        | none => .error .corruptChain
        | some p =>
          match getBucketByID st p with
          | none => .error .corruptChain
          | some b' => collectBuckets st lo hi fuel b.Start p b' acc'

/-- The inner filter loop of `Search` over one bucket's `EventRefs`: an
event reference that does not resolve is fatal; a matching event is
appended, and once `searchMax` events have been collected the whole filter
is stopped with the truncation flag set. -/
def filterRefs (st : State) (lo hi : Int) (topic : String) (max : Nat) :
    List Nat → List Event → Except Err (List Event × Bool)
  | [], acc => .ok (acc, false)
  | r :: rs, acc =>
    match getEventByID st r with
    | none => .error .corruptChain
    | some ev =>
      if eventMatch lo hi topic ev then
        let acc' := acc ++ [ev]
        if max ≤ acc'.length then .ok (acc', true)
        else filterRefs st lo hi topic max rs acc'
      else filterRefs st lo hi topic max rs acc

/-- The outer filter loop of `Search`, over the collected buckets already
put in oldest-to-newest order. -/
def filterBuckets (st : State) (lo hi : Int) (topic : String) (max : Nat) :
    List Bucket → List Event → Except Err (List Event × Bool)
  | [], acc => .ok (acc, false)
  | b :: bs, acc =>
    match filterRefs st lo hi topic max b.EventRefs acc with
    | .error e => .error e
    | .ok (acc', true) => .ok (acc', true)
    | .ok (acc', false) => filterBuckets st lo hi topic max bs acc'

/-- `Search` of `service.go`: reject a null instance ID, default `To = 0`
to now, return an empty result on a missing index, collect the buckets
overlapping the window walking newest-to-oldest, then filter their events
processing buckets oldest-to-newest with cap `max`. -/
def search (st : State) (now : Int) (max : Nat) (req : SearchRequest) :
    Except Err SearchResponse :=
  if req.idNull then .error .skipchainIDRequired
  else
    let hi := if req.To = 0 then now else req.To
    match getLatestBucket st with
    | .error .indexMissing => .ok ⟨[], false⟩
    | .error e => .error e
    | .ok (a, b) =>
      match collectBuckets st req.From hi (st.buckets.length + 1) now a b [] with
      | .error e => .error e
      | .ok cbs =>
        match filterBuckets st req.From hi req.Topic max ((cbs.map Prod.snd).reverse) [] with
        | .error e => .error e
        | .ok (evs, trunc) => .ok ⟨evs, trunc⟩

/-- The reply to `omniledger.GetProof` as `GetEvent` consumes it: whether
`Proof.InclusionProof.Match()` holds, the key returned by
`Proof.KeyValue()`, and the returned values (each modelled by its protobuf
decode result). -/
structure ProofReply where
  isMatch : Bool
  key : Nat
  values : List (Option Event)
  deriving DecidableEq

/-- `GetEvent` of `service.go`: require an inclusion proof, require the
returned key to equal the requested key, require at least two values, then
decode the first value as the event. -/
def GetEvent (requestedKey : Nat) (reply : ProofReply) : Except Err Event :=
  if !reply.isMatch then .error .notInclusionProof
  else if reply.key = requestedKey then
    match reply.values with
    | some e :: _ :: _ => .ok e
    | none :: _ :: _ => .error .malformedRecord
    | _ => .error .notEnoughValues
  else .error .wrongKey

/-! ## Specification-side descriptions of the two walks

The following definitions restate, as pure list functions over an abstract
chain (the buckets listed head-first, sentinel last), what the imperative
pointer-chasing loops of the source compute.  The claim theorems relate
the source embeddings above to these. -/

/-- The walk of `contractFunction` stops at a bucket exactly when it is
the sentinel or its start does not exceed the event timestamp. -/
def stopOn (w : Int) (x : Nat × Bucket) : Bool :=
  x.2.Prev.isNone || decide (x.2.Start ≤ w)

/-- The stopping bucket of the backward walk: the first (most recent)
bucket of the chain whose start is at most the event timestamp, the
sentinel as fall-through. -/
def stopSpec (w : Int) (L : List (Nat × Bucket)) : Option (Nat × Bucket) :=
  L.find? (stopOn w)

/-- The buckets `Search` collects, computed over the abstract chain
(head-first) with running upper bound `bEnd`: stop before a bucket once
`bEnd < From`; skip, but walk past, a bucket with `To < Start`. -/
def collectSpecAux (lo hi : Int) : Int → List (Nat × Bucket) → List (Nat × Bucket)
  | _, [] => []
  | bEnd, x :: rest =>
    if bEnd < lo then []
    else (if hi < x.2.Start then [] else [x]) ++ collectSpecAux lo hi x.2.Start rest

/-- Resolve a list of event references; `none` if any reference dangles. -/
def resolveAll (st : State) (refs : List Nat) : Option (List Event) :=
  refs.mapM (getEventByID st)

/-- The consecutive `Prev` links of an abstract chain, head-first: every
bucket points to the next older one, and the last (the sentinel) has no
predecessor. -/
def ChainLinks : List (Nat × Bucket) → Prop
  | [] => True
  | [x] => x.2.Prev = none
  | x :: y :: rest => x.2.Prev = some y.1 ∧ ChainLinks (y :: rest)

/-- Every listed bucket is stored at its address. -/
def LookupsOK (st : State) (L : List (Nat × Bucket)) : Prop :=
  ∀ x ∈ L, getBucketByID st x.1 = some x.2

/-- An abstract chain faithfully lists the stored bucket chain. -/
def IsChain (st : State) (L : List (Nat × Bucket)) : Prop :=
  ChainLinks L ∧ LookupsOK st L

/-- Bucket starts walked head-first: strictly decreasing and positive,
down to the sentinel whose start is 0. -/
def StartsOK : List (Nat × Bucket) → Prop
  | [] => True
  | [x] => x.2.Start = 0
  | x :: y :: rest => y.2.Start < x.2.Start ∧ 0 < x.2.Start ∧ StartsOK (y :: rest)

/-- Every event reference of the bucket resolves, to an event no newer
than `cap`. -/
def BucketEventsLE (st : State) (cap : Int) (b : Bucket) : Prop :=
  ∀ r ∈ b.EventRefs, ∃ e, getEventByID st r = some e ∧ e.When ≤ cap

/-- Timestamps held by the chain, head-first: the head bucket holds events
up to `cap`, and every older bucket holds events strictly older than its
successor's start. -/
def CapsOK (st : State) : Int → List (Nat × Bucket) → Prop
  | _, [] => True
  | cap, x :: rest => BucketEventsLE st cap x.2 ∧ CapsOK st (x.2.Start - 1) rest

/-- The cap that `CapsOK` threads past a prefix of the chain. -/
def capAfter (cap : Int) : List (Nat × Bucket) → Int
  | [] => cap
  | x :: rest => capAfter (x.2.Start - 1) rest

/-- Running upper bound on event timestamps along the chain, head-first,
starting from `bEnd` (which is `now` at the head): each bucket's start and
events stay at or below the incoming bound, and the bound shrinks to the
bucket's start for the rest of the chain. -/
def BEndBound (st : State) : Int → List (Nat × Bucket) → Prop
  | _, [] => True
  | bEnd, x :: rest =>
    x.2.Start ≤ bEnd ∧
      (∀ r ∈ x.2.EventRefs, ∃ e, getEventByID st r = some e ∧ e.When ≤ bEnd) ∧
      BEndBound st x.2.Start rest

/-- The full matched sequence of a search window over an abstract chain:
the events of the collected buckets, buckets oldest first, filtered by the
window and topic; `none` if a reference dangles. -/
def windowMatches (st : State) (lo hi : Int) (topic : String) (bEnd : Int)
    (L : List (Nat × Bucket)) : Option (List Event) :=
  (resolveAll st
      (((collectSpecAux lo hi bEnd L).map Prod.snd).reverse.flatMap Bucket.EventRefs)).map
    (List.filter (eventMatch lo hi topic))

/-- The three object IDs a creation transaction consumes. -/
def txAddrs (ids : TxIDs) : List Nat :=
  [ids.objectID, ids.bucketID, ids.catchAllID]

/-- All object IDs a sequence of insertions may touch. -/
def allAddrs (es : List (Event × TxIDs)) : List Nat :=
  es.flatMap fun p => txAddrs p.2

/-- The timestamp cap of the head bucket: events may run `bucketMaxAge`
past its start (an event older than that triggers a new head instead). -/
def headCap (L : List (Nat × Bucket)) : Int :=
  match L.head? with
  | some x => x.2.Start + bucketMaxAge
  | none => 0

/-- Invariant tying a state reached by `insertAll es` to its abstract
bucket chain `L` (head-first, sentinel last). -/
structure Inv (es : List (Event × TxIDs)) (st : State) (L : List (Nat × Bucket)) : Prop where
  headOK : st.head = L.head?.map Prod.fst
  chainOK : IsChain st L
  nodupOK : (L.map Prod.fst).Nodup
  startsOK : StartsOK L
  capsOK : CapsOK st (headCap L) L
  startsFrom : ∀ x ∈ L, x.2.Start = 0 ∨ ∃ p ∈ es, x.2.Start = p.1.When
  evStore : ∀ q ∈ st.events, q.1 ∈ es.map (fun p => p.2.objectID) ∧ q.2 ∈ es.map Prod.fst
  bkStore : ∀ q ∈ st.buckets, q.1 ∈ es.flatMap (fun p => [p.2.bucketID, p.2.catchAllID])

/-- The state changes of the Append case: the event record plus an update
of the stopping bucket with the new address appended. -/
def appendScs (tx : Instruction) (e : Event) (bID : Nat) (b : Bucket) : List StateChange :=
  [⟨.create, tx.objectID, .ev e⟩,
   ⟨.update, bID, .bk ⟨b.Start, b.Prev, b.EventRefs ++ [tx.objectID]⟩⟩]

/-- The state changes of the New-head case: the event record, the new head
bucket, and the head-pointer update. -/
def newHeadScs (tx : Instruction) (e : Event) (bID : Nat) : List StateChange :=
  [⟨.create, tx.objectID, .ev e⟩,
   ⟨.create, tx.bucketID, .bk ⟨e.When, some bID, [tx.objectID]⟩⟩,
   ⟨.update, theEventLog, .ptr tx.bucketID⟩]

/-! ## Concrete scenario material -/

/-- Events at t = 0s, 3s, 7s for the bucket aging scenario of C1. -/
def evT0 : Event := ⟨0, "t", "a"⟩

def evT3 : Event := ⟨3 * nanosPerSecond, "t", "b"⟩

def evT7 : Event := ⟨7 * nanosPerSecond, "u", "c"⟩

def idsA : TxIDs := ⟨1, 2, 3⟩

def idsB : TxIDs := ⟨4, 5, 6⟩

def idsC : TxIDs := ⟨7, 8, 9⟩

/-- Events at t = 1s, 3s sharing one bucket, for the C4 counterexample. -/
def evS1 : Event := ⟨1 * nanosPerSecond, "", "x"⟩

def evS3 : Event := ⟨3 * nanosPerSecond, "", "y"⟩

/-- Events at t = 1s, 3s, 7s for the C4 witness. -/
def evW1 : Event := ⟨1 * nanosPerSecond, "", "p"⟩

def evW3 : Event := ⟨3 * nanosPerSecond, "", "q"⟩

def evW7 : Event := ⟨7 * nanosPerSecond, "", "r"⟩

/-- The state reached by inserting the three witness events. -/
def stW : State :=
  ⟨[(8, ⟨7 * nanosPerSecond, some 2, [7]⟩), (2, ⟨1 * nanosPerSecond, some 3, [1, 4]⟩),
    (2, ⟨1 * nanosPerSecond, some 3, [1]⟩), (3, ⟨0, none, []⟩)],
   [(7, evW7), (4, evW3), (1, evW1)], some 8⟩

/-! ## Basic lemmas -/

theorem findVal_cons (a k : Nat) (v : α) (l : List (Nat × α)) :
    findVal a ((k, v) :: l) = if k = a then some v else findVal a l := rfl

theorem findVal_mem {a : Nat} {v : α} {l : List (Nat × α)} (h : findVal a l = some v) :
    (a, v) ∈ l := by
  induction l with
  | nil => simp [findVal] at h
  | cons x rest ih =>
    obtain ⟨k, w⟩ := x
    rw [findVal_cons] at h
    by_cases hk : k = a
    · subst hk
      rw [if_pos rfl] at h
      obtain rfl : w = v := by injection h
      exact List.mem_cons_self _ _
    · rw [if_neg hk] at h
      exact List.mem_cons_of_mem _ (ih h)

theorem findVal_mem_fst {a : Nat} {v : α} {l : List (Nat × α)} (h : findVal a l = some v) :
    a ∈ l.map Prod.fst :=
  List.mem_map.mpr ⟨(a, v), findVal_mem h, rfl⟩

theorem findVal_cons_ne {a k : Nat} (v : α) (l : List (Nat × α)) (h : k ≠ a) :
    findVal a ((k, v) :: l) = findVal a l := by
  rw [findVal_cons, if_neg h]

theorem find?_split {p : α → Bool} :
    ∀ {l : List α} {x : α}, l.find? p = some x →
      ∃ l₁ l₂, l = l₁ ++ x :: l₂ ∧ (∀ y ∈ l₁, p y = false) ∧ p x = true := by
  intro l
  induction l with
  | nil => intro x h; simp [List.find?] at h
  | cons z rest ih =>
    intro x h
    rw [List.find?] at h
    cases hz : p z with
    | true =>
      rw [hz] at h
      obtain rfl : z = x := by injection h
      exact ⟨[], rest, rfl, by simp, hz⟩
    | false =>
      rw [hz] at h
      obtain ⟨l₁, l₂, rfl, h1, h2⟩ := ih h
      exact ⟨z :: l₁, l₂, rfl, by
        intro y hy
        rcases List.mem_cons.mp hy with rfl | hy
        · exact hz
        · exact h1 y hy, h2⟩

/-- The backward walk of the Writer, characterised against the abstract
chain: it succeeds and stops at the first bucket (walking head-first) that
is the sentinel or has start at most the event timestamp, and the `isHead`
flag survives exactly when that is the starting bucket. -/
theorem walkBack_spec (st : State) (w : Int) :
    ∀ (rest : List (Nat × Bucket)) (a : Nat) (b : Bucket) (fuel : Nat) (ih : Bool),
      IsChain st ((a, b) :: rest) → ((a, b) :: rest).length ≤ fuel →
      ∃ s, stopSpec w ((a, b) :: rest) = some s ∧
        walkBack st w fuel a b ih = .ok (s.1, s.2, ih && stopOn w (a, b)) := by
  intro rest
  induction rest with
  | nil =>
    intro a b fuel ih hc hf
    obtain ⟨hlinks, _⟩ := hc
    have hprev : b.Prev = none := hlinks
    have hstop : stopOn w (a, b) = true := by
      simp [stopOn, hprev]
    cases fuel with
    | zero => simp at hf
    | succ f =>
      refine ⟨(a, b), ?_, ?_⟩
      · simp [stopSpec, List.find?, hstop]
      · have hfirst : b.isFirst = true := by simp [Bucket.isFirst, hprev]
        simp [walkBack, hfirst, hstop]
  | cons y rest' ih' =>
    intro a b fuel ih hc hf
    obtain ⟨hlinks, hlook⟩ := hc
    obtain ⟨y1, y2⟩ := y
    have hblink : b.Prev = some y1 := hlinks.1
    cases fuel with
    | zero => simp at hf
    | succ f =>
      cases hstop : stopOn w (a, b) with
      | true =>
        refine ⟨(a, b), ?_, ?_⟩
        · simp [stopSpec, List.find?, hstop]
        · have hguard : (!b.isFirst && !(decide (b.Start ≤ w))) = false := by
            rcases Bool.or_eq_true_iff.mp hstop with h | h
            · simp [Bucket.isFirst, h]
            · simp [h]
          simp [walkBack, hguard, hstop]
      | false =>
        have hnotle : ¬ (b.Start ≤ w) := by
          simp [stopOn, hblink] at hstop
          omega
        have hguard : (!b.isFirst && !(decide (b.Start ≤ w))) = true := by
          simp [Bucket.isFirst, hblink, hnotle]
        have hlooky : getBucketByID st y1 = some y2 :=
          hlook (y1, y2) (List.mem_cons_of_mem _ (List.mem_cons_self _ _))
        have hchain' : IsChain st ((y1, y2) :: rest') :=
          ⟨hlinks.2, fun x hx => hlook x (List.mem_cons_of_mem _ hx)⟩
        have hf' : ((y1, y2) :: rest').length ≤ f := by
          simp at hf ⊢
          omega
        obtain ⟨s, hs1, hs2⟩ := ih' y1 y2 f false hchain' hf'
        refine ⟨s, ?_, ?_⟩
        · simp [stopSpec, List.find?, hstop] at hs1 ⊢
          exact hs1
        · have hstep : walkBack st w (f + 1) a b ih = walkBack st w f y1 y2 false := by
            simp only [walkBack, hguard, if_true, hblink, hlooky]
          rw [hstep, hs2]
          simp [hstop]

/-! ## Claim theorems: the simpler claims -/

/-- C10: a search whose ledger instance ID is null fails with the
"skipchain ID required" error, whatever the ledger state is — no result,
empty or otherwise, is produced. -/
theorem C10_null_instance_id (st : State) (now : Int) (max : Nat)
    (lo hi : Int) (topic : String) :
    search st now max ⟨true, lo, hi, topic⟩ = .error .skipchainIDRequired := rfl

/-- C8: if no head pointer exists for the queried instance, a search
returns an empty, untruncated result and no error. -/
theorem C8_empty_log_search (st : State) (now : Int) (max : Nat) (req : SearchRequest)
    (hid : req.idNull = false) (hh : st.head = none) :
    search st now max req = .ok ⟨[], false⟩ := by
  simp [search, getLatestBucket, hid, hh]

theorem C8_empty_log_search_witness :
    search State.empty 0 10000 ⟨false, 0, 5, "x"⟩ = .ok ⟨[], false⟩ :=
  C8_empty_log_search State.empty 0 10000 ⟨false, 0, 5, "x"⟩ rfl rfl

/-- C9: fetching one event by key returns a decoded event only if the
proof is an inclusion proof whose returned key equals the requested key;
a non-inclusion proof or a key mismatch yields an error and no event. -/
theorem C9_get_event_checks (k : Nat) (reply : ProofReply) :
    (∀ e, GetEvent k reply = .ok e → reply.isMatch = true ∧ reply.key = k) ∧
    (reply.isMatch = false → GetEvent k reply = .error .notInclusionProof) ∧
    (reply.isMatch = true → reply.key ≠ k → GetEvent k reply = .error .wrongKey) := by
  refine ⟨?_, ?_, ?_⟩
  · intro e h
    cases hm : reply.isMatch with
    | false => simp [GetEvent, hm] at h
    | true =>
      by_cases hk : reply.key = k
      · exact ⟨rfl, hk⟩
      · simp [GetEvent, hm, hk] at h
  · intro hm
    simp [GetEvent, hm]
  · intro hm hk
    simp [GetEvent, hm, hk]

theorem C9_get_event_checks_witness :
    GetEvent 5 ⟨false, 5, []⟩ = .error .notInclusionProof :=
  (C9_get_event_checks 5 ⟨false, 5, []⟩).2.1 rfl

/-- C6: the contract entry point rejects deletions and invocations, and
rejects a transaction that is not a spawn or lacks the named "event"
argument; in each failure case the result is an error carrying no state
changes. -/
theorem C6_entry_point_rejects (st : State) (now : Int) (tx : Instruction) :
    (tx.delete = true → contractFunction st now tx = .error .deleteNotAllowed) ∧
    (tx.delete = false → tx.invoke = true →
      contractFunction st now tx = .error .invokeNotAllowed) ∧
    (tx.delete = false → tx.invoke = false → tx.spawn = none →
      contractFunction st now tx = .error .expectedSpawn) ∧
    (∀ sp, tx.delete = false → tx.invoke = false → tx.spawn = some sp →
      argSearch "event" sp.args = none →
      contractFunction st now tx = .error .missingEventArg) := by
  refine ⟨?_, ?_, ?_, ?_⟩
  · intro h
    simp [contractFunction, h]
  · intro h1 h2
    simp [contractFunction, h1, h2]
  · intro h1 h2 h3
    simp [contractFunction, h1, h2, h3]
  · intro sp h1 h2 h3 h4
    simp [contractFunction, h1, h2, h3, h4]

theorem C6_entry_point_rejects_witness :
    contractFunction State.empty 0 ⟨true, false, none, 0, 0, 0⟩ = .error .deleteNotAllowed :=
  (C6_entry_point_rejects State.empty 0 ⟨true, false, none, 0, 0, 0⟩).1 rfl

/-- C5: timestamp validation fails with the in-future error exactly when
the event is newer than now, fails with the too-old error exactly when it
is more than 5 seconds older than now, accepts otherwise, and a rejected
event makes the contract fail with that error, emitting no state change. -/
theorem C5_timestamp_validation (buf : Option Event) (now : Int) :
    (decodeAndCheckEvent buf now = .error .timestampInFuture ↔
      ∃ e, buf = some e ∧ now < e.When) ∧
    (decodeAndCheckEvent buf now = .error .timestampTooOld ↔
      ∃ e, buf = some e ∧ e.When < now - 5 * nanosPerSecond) ∧
    (∀ e, buf = some e → now - 5 * nanosPerSecond ≤ e.When → e.When ≤ now →
      decodeAndCheckEvent buf now = .ok e) ∧
    (∀ st tx sp er, tx.delete = false → tx.invoke = false → tx.spawn = some sp →
      argSearch "event" sp.args = some buf →
      decodeAndCheckEvent buf now = .error er →
      contractFunction st now tx = .error er) := by
  refine ⟨?_, ?_, ?_, ?_⟩
  · cases buf with
    | none => simp [decodeAndCheckEvent]
    | some e =>
      simp only [decodeAndCheckEvent, Option.some.injEq]
      constructor
      · intro h
        by_cases h1 : e.When < now - 5 * nanosPerSecond
        · rw [if_pos h1] at h
          exact absurd h (by simp)
        · rw [if_neg h1] at h
          by_cases h2 : now < e.When
          · exact ⟨e, rfl, h2⟩
          · rw [if_neg h2] at h
            exact absurd h (by simp)
      · rintro ⟨e', he, hlt⟩
        rw [← he] at hlt
        have h1 : ¬ (e.When < now - 5 * nanosPerSecond) := by
          simp only [nanosPerSecond]
          omega
        rw [if_neg h1, if_pos hlt]
  · cases buf with
    | none => simp [decodeAndCheckEvent]
    | some e =>
      simp only [decodeAndCheckEvent, Option.some.injEq]
      constructor
      · intro h
        by_cases h1 : e.When < now - 5 * nanosPerSecond
        · exact ⟨e, rfl, h1⟩
        · rw [if_neg h1] at h
          by_cases h2 : now < e.When
          · rw [if_pos h2] at h
            exact absurd h (by simp)
          · rw [if_neg h2] at h
            exact absurd h (by simp)
      · rintro ⟨e', he, hlt⟩
        rw [← he] at hlt
        rw [if_pos hlt]
  · rintro e rfl hlo hhi
    have h1 : ¬ (e.When < now - 5 * nanosPerSecond) := by omega
    have h2 : ¬ (now < e.When) := by
      simp only [nanosPerSecond] at hlo
      omega
    simp [decodeAndCheckEvent, h1, h2]
  · intro st tx sp er h1 h2 h3 h4 h5
    simp [contractFunction, h1, h2, h3, h4, h5]

theorem C5_timestamp_validation_witness :
    decodeAndCheckEvent (some ⟨-nanosPerSecond, "t", "c"⟩) 0 = .ok ⟨-nanosPerSecond, "t", "c"⟩ :=
  (C5_timestamp_validation (some ⟨-nanosPerSecond, "t", "c"⟩) 0).2.2.1
    ⟨-nanosPerSecond, "t", "c"⟩ rfl (by decide) (by decide)

/-- C3: inserting the first event into an empty log (head pointer absent)
emits exactly the event record, the sentinel bucket (start 0, no
predecessor, no events), a first head bucket (start equal to the event's
timestamp, predecessor the sentinel, holding exactly the new event's
address), and the head-pointer record referencing the new head. -/
theorem C3_bootstrap (st : State) (now : Int) (tx : Instruction) (sp : SpawnData) (e : Event)
    (hh : st.head = none) (hd : tx.delete = false) (hi : tx.invoke = false)
    (hs : tx.spawn = some sp) (ha : argSearch "event" sp.args = some (some e))
    (h1 : now - 5 * nanosPerSecond ≤ e.When) (h2 : e.When ≤ now) :
    contractFunction st now tx =
      .ok [⟨.create, tx.objectID, .ev e⟩,
           ⟨.create, tx.catchAllID, .bk ⟨0, none, []⟩⟩,
           ⟨.create, tx.bucketID, .bk ⟨e.When, some tx.catchAllID, [tx.objectID]⟩⟩,
           ⟨.create, theEventLog, .ptr tx.bucketID⟩] := by
  have hnot1 : ¬ (e.When < now - 5 * nanosPerSecond) := by omega
  have hnot2 : ¬ (now < e.When) := by omega
  simp [contractFunction, hd, hi, hs, ha, decodeAndCheckEvent, hnot1, hnot2,
    getLatestBucket, hh]

theorem C3_bootstrap_witness :
    contractFunction State.empty 0 (mkSpawnTx evT0 idsA) =
      .ok [⟨.create, 1, .ev evT0⟩,
           ⟨.create, 3, .bk ⟨0, none, []⟩⟩,
           ⟨.create, 2, .bk ⟨0, some 3, [1]⟩⟩,
           ⟨.create, theEventLog, .ptr 2⟩] :=
  C3_bootstrap State.empty 0 (mkSpawnTx evT0 idsA) ⟨[("event", some evT0)]⟩ evT0
    rfl rfl rfl rfl rfl (by decide) (by decide)

/-- C4, counterexample: with events at t = 1s and t = 3s in one bucket, a
search over [0, 10s) capped at 1 returns the t = 1s event and is
truncated; re-issuing the search with `from` set to the when of that last
returned event returns the very same event again — a duplicated event,
contradicting the claim that such re-querying yields the next contiguous
slice with no duplicates. -/
theorem C4_pagination_counterexample :
    (insertAll [(evS1, idsA), (evS3, idsB)]).map (fun st =>
      (search st (10 * nanosPerSecond) 1 ⟨false, 0, 10 * nanosPerSecond, ""⟩,
       search st (10 * nanosPerSecond) 1 ⟨false, evS1.When, 10 * nanosPerSecond, ""⟩)) =
      .ok (.ok ⟨[evS1], true⟩, .ok ⟨[evS1], true⟩) := rfl

/-! ## Writer placement (C1, C7) -/

theorem decodeAndCheckEvent_ok {e : Event} {now : Int}
    (h1 : now - 5 * nanosPerSecond ≤ e.When) (h2 : e.When ≤ now) :
    decodeAndCheckEvent (some e) now = .ok e := by
  have hn1 : ¬ (e.When < now - 5 * nanosPerSecond) := by omega
  have hn2 : ¬ (now < e.When) := by omega
  simp [decodeAndCheckEvent, hn1, hn2]

/-- With a valid creation transaction, a resolved head and a completed
walk, the contract emits the New-head changes exactly when the walk ended
at the head with the event more than `bucketMaxAge` past its start, and
the Append changes otherwise. -/
theorem contract_cases (st : State) (now : Int) (tx : Instruction) (sp : SpawnData) (e : Event)
    (bID0 bID : Nat) (b0 b : Bucket) (isHead : Bool)
    (hd : tx.delete = false) (hinv : tx.invoke = false) (hs : tx.spawn = some sp)
    (ha : argSearch "event" sp.args = some (some e))
    (h1 : now - 5 * nanosPerSecond ≤ e.When) (h2 : e.When ≤ now)
    (hlb : getLatestBucket st = .ok (bID0, b0))
    (hw : walkBack st e.When (st.buckets.length + 1) bID0 b0 true = .ok (bID, b, isHead)) :
    contractFunction st now tx =
      if isHead && decide (bucketMaxAge < e.When - b.Start) then .ok (newHeadScs tx e bID)
      else .ok (appendScs tx e bID b) := by
  simp [contractFunction, hd, hinv, hs, ha, decodeAndCheckEvent_ok h1 h2, hlb, hw,
    newHeadScs, appendScs]

/-- C1: on a non-empty log the Writer walks backward from the head bucket
to the most recent bucket whose start is at most the event's timestamp
(falling through to the sentinel), creates a new head bucket
(start = e.when, prev = stopping bucket, refs = [addr]) with a
head-pointer update exactly when the stopping bucket is the head and
e.when exceeds its start by more than `bucketMaxAge`, and otherwise
appends the address to the stopping bucket; with the 5s default, events at
t = 0s, 3s, 7s yield a first head bucket holding the first two events and
a second head bucket holding the third. -/
theorem C1_writer_placement :
    (∀ (st : State) (w : Int) (rest : List (Nat × Bucket)) (a : Nat) (b : Bucket)
        (fuel : Nat) (ih : Bool),
        IsChain st ((a, b) :: rest) → ((a, b) :: rest).length ≤ fuel →
        ∃ s, stopSpec w ((a, b) :: rest) = some s ∧
          walkBack st w fuel a b ih = .ok (s.1, s.2, ih && stopOn w (a, b))) ∧
    (∀ (st : State) (now : Int) (tx : Instruction) (sp : SpawnData) (e : Event)
        (bID0 bID : Nat) (b0 b : Bucket) (isHead : Bool),
        tx.delete = false → tx.invoke = false → tx.spawn = some sp →
        argSearch "event" sp.args = some (some e) →
        now - 5 * nanosPerSecond ≤ e.When → e.When ≤ now →
        getLatestBucket st = .ok (bID0, b0) →
        walkBack st e.When (st.buckets.length + 1) bID0 b0 true = .ok (bID, b, isHead) →
        (isHead = true → bucketMaxAge < e.When - b.Start →
          contractFunction st now tx = .ok (newHeadScs tx e bID)) ∧
        ((isHead = false ∨ e.When - b.Start ≤ bucketMaxAge) →
          contractFunction st now tx = .ok (appendScs tx e bID b))) ∧
    ((insertAll [(evT0, idsA), (evT3, idsB), (evT7, idsC)]).map (fun st =>
        (st.head, getBucketByID st idsC.bucketID, getBucketByID st idsA.bucketID)) =
      .ok (some idsC.bucketID,
           some ⟨evT7.When, some idsA.bucketID, [idsC.objectID]⟩,
           some ⟨0, some idsA.catchAllID, [idsA.objectID, idsB.objectID]⟩)) := by
  refine ⟨fun st w rest a b fuel ih hc hf => walkBack_spec st w rest a b fuel ih hc hf,
    ?_, rfl⟩
  intro st now tx sp e bID0 bID b0 b isHead hd hinv hs ha h1 h2 hlb hw
  constructor
  · intro hH hlt
    rw [contract_cases st now tx sp e bID0 bID b0 b isHead hd hinv hs ha h1 h2 hlb hw]
    simp [hH, hlt]
  · intro hc
    rw [contract_cases st now tx sp e bID0 bID b0 b isHead hd hinv hs ha h1 h2 hlb hw]
    rcases hc with hc | hc
    · simp [hc]
    · have : ¬ (bucketMaxAge < e.When - b.Start) := by omega
      simp [this]

theorem C1_writer_placement_witness :
    contractFunction ⟨[(2, ⟨0, some 3, [1]⟩), (3, ⟨0, none, []⟩)], [(1, evT0)], some 2⟩
        evT3.When (mkSpawnTx evT3 idsB) =
      .ok (appendScs (mkSpawnTx evT3 idsB) evT3 2 ⟨0, some 3, [1]⟩) :=
  (C1_writer_placement.2.1 ⟨[(2, ⟨0, some 3, [1]⟩), (3, ⟨0, none, []⟩)], [(1, evT0)], some 2⟩
      evT3.When (mkSpawnTx evT3 idsB) ⟨[("event", some evT3)]⟩ evT3 2 2
      ⟨0, some 3, [1]⟩ ⟨0, some 3, [1]⟩ true rfl rfl rfl rfl (by decide) (by decide)
      rfl rfl).2 (Or.inr (by decide))

/-- C7: in the Append case the emitted changes are exactly the event
record plus one update of the stopping bucket appending the new address at
the end of its refs; applying them leaves the head pointer untouched,
stores the stopping bucket with unchanged start and prev, and changes no
other bucket. -/
theorem C7_append_frame (st : State) (now : Int) (tx : Instruction) (sp : SpawnData) (e : Event)
    (bID0 bID : Nat) (b0 b : Bucket) (isHead : Bool)
    (hd : tx.delete = false) (hinv : tx.invoke = false) (hs : tx.spawn = some sp)
    (ha : argSearch "event" sp.args = some (some e))
    (h1 : now - 5 * nanosPerSecond ≤ e.When) (h2 : e.When ≤ now)
    (hlb : getLatestBucket st = .ok (bID0, b0))
    (hw : walkBack st e.When (st.buckets.length + 1) bID0 b0 true = .ok (bID, b, isHead))
    (hc : isHead = false ∨ e.When - b.Start ≤ bucketMaxAge) :
    contractFunction st now tx = .ok (appendScs tx e bID b) ∧
    (applyScs st (appendScs tx e bID b)).head = st.head ∧
    getBucketByID (applyScs st (appendScs tx e bID b)) bID =
      some ⟨b.Start, b.Prev, b.EventRefs ++ [tx.objectID]⟩ ∧
    (∀ x, x ≠ bID → getBucketByID (applyScs st (appendScs tx e bID b)) x = getBucketByID st x) ∧
    (applyScs st (appendScs tx e bID b)).events = (tx.objectID, e) :: st.events := by
  refine ⟨?_, rfl, ?_, ?_, rfl⟩
  · rw [contract_cases st now tx sp e bID0 bID b0 b isHead hd hinv hs ha h1 h2 hlb hw]
    rcases hc with hc | hc
    · simp [hc]
    · have : ¬ (bucketMaxAge < e.When - b.Start) := by omega
      simp [this]
  · simp [applyScs, appendScs, applySc, getBucketByID, findVal]
  · intro x hx
    have hx' : bID ≠ x := fun h => hx h.symm
    simp only [applyScs, appendScs, applySc, List.foldl]
    exact findVal_cons_ne _ _ hx'

theorem C7_append_frame_witness :
    contractFunction ⟨[(2, ⟨3 * nanosPerSecond, some 3, [1]⟩), (3, ⟨0, none, []⟩)],
        [(1, evS3)], some 2⟩ evS1.When (mkSpawnTx evS1 idsB) =
      .ok (appendScs (mkSpawnTx evS1 idsB) evS1 3 ⟨0, none, []⟩) :=
  (C7_append_frame ⟨[(2, ⟨3 * nanosPerSecond, some 3, [1]⟩), (3, ⟨0, none, []⟩)],
      [(1, evS3)], some 2⟩ evS1.When (mkSpawnTx evS1 idsB) ⟨[("event", some evS1)]⟩ evS1
      2 3 ⟨3 * nanosPerSecond, some 3, [1]⟩ ⟨0, none, []⟩ false rfl rfl rfl rfl
      (by decide) (by decide) rfl rfl (Or.inl rfl)).1

/-! ## Reader filter phase (C2) -/

theorem resolveAll_nil (st : State) : resolveAll st [] = some [] := rfl

theorem resolveAll_cons {st : State} {r : Nat} {rs : List Nat} {es : List Event}
    (h : resolveAll st (r :: rs) = some es) :
    ∃ ev es', getEventByID st r = some ev ∧ resolveAll st rs = some es' ∧ es = ev :: es' := by
  rw [resolveAll, List.mapM_cons] at h
  cases h1 : getEventByID st r with
  | none => rw [h1] at h; simp at h
  | some ev =>
    rw [h1] at h
    cases h2 : rs.mapM (getEventByID st) with
    | none => rw [h2] at h; simp at h
    | some es' =>
      rw [h2] at h
      simp at h
      exact ⟨ev, es', rfl, h2, h.symm⟩

theorem resolveAll_append {st : State} :
    ∀ {l₁ l₂ : List Nat} {es : List Event}, resolveAll st (l₁ ++ l₂) = some es →
      ∃ es₁ es₂, resolveAll st l₁ = some es₁ ∧ resolveAll st l₂ = some es₂ ∧ es = es₁ ++ es₂ := by
  intro l₁
  induction l₁ with
  | nil => intro l₂ es h; exact ⟨[], es, rfl, h, rfl⟩
  | cons r rs ih =>
    intro l₂ es h
    rw [List.cons_append] at h
    obtain ⟨ev, es', h1, h2, rfl⟩ := resolveAll_cons h
    obtain ⟨es₁, es₂, h3, h4, rfl⟩ := ih h2
    refine ⟨ev :: es₁, es₂, ?_, h4, rfl⟩
    rw [resolveAll, List.mapM_cons, h1]
    rw [resolveAll] at h3
    rw [h3]
    rfl

theorem filterRefs_nil (st : State) (lo hi : Int) (topic : String) (max : Nat)
    (acc : List Event) : filterRefs st lo hi topic max [] acc = .ok (acc, false) := rfl

theorem filterRefs_cons_some {st : State} {lo hi : Int} {topic : String} {max : Nat}
    {r : Nat} {rs : List Nat} {acc : List Event} {ev : Event}
    (h1 : getEventByID st r = some ev) :
    filterRefs st lo hi topic max (r :: rs) acc =
      if eventMatch lo hi topic ev then
        (if max ≤ (acc ++ [ev]).length then .ok (acc ++ [ev], true)
         else filterRefs st lo hi topic max rs (acc ++ [ev]))
      else filterRefs st lo hi topic max rs acc := by
  simp only [filterRefs, h1]

theorem filterBuckets_nil (st : State) (lo hi : Int) (topic : String) (max : Nat)
    (acc : List Event) : filterBuckets st lo hi topic max [] acc = .ok (acc, false) := rfl

theorem filterBuckets_cons_ok {st : State} {lo hi : Int} {topic : String} {max : Nat}
    {b : Bucket} {bs : List Bucket} {acc acc' : List Event} {t : Bool}
    (h : filterRefs st lo hi topic max b.EventRefs acc = .ok (acc', t)) :
    filterBuckets st lo hi topic max (b :: bs) acc =
      if t then .ok (acc', true) else filterBuckets st lo hi topic max bs acc' := by
  cases t with
  | true => simp [filterBuckets, h]
  | false => simp [filterBuckets, h]

/-- The inner filter loop, characterised: with all references resolving to
`es` and room left in the accumulator, it appends the matching events of
`es` up to the cap and reports truncation exactly when the cap is hit. -/
theorem filterRefs_ok (st : State) (lo hi : Int) (topic : String) (max : Nat) :
    ∀ (refs : List Nat) (acc es : List Event),
      resolveAll st refs = some es → acc.length < max →
      filterRefs st lo hi topic max refs acc =
        .ok (acc ++ (es.filter (eventMatch lo hi topic)).take (max - acc.length),
             decide (max ≤ acc.length + (es.filter (eventMatch lo hi topic)).length)) := by
  intro refs
  induction refs with
  | nil =>
    intro acc es h hlt
    rw [resolveAll_nil] at h
    obtain rfl : es = [] := (Option.some_inj.mp h).symm
    rw [filterRefs_nil, List.filter_nil, List.take_nil, List.append_nil]
    have hflag : ¬ (max ≤ acc.length + ([] : List Event).length) := by
      simp
      omega
    rw [decide_eq_false hflag]
  | cons r rs ih =>
    intro acc es h hlt
    obtain ⟨ev, es', h1, h2, rfl⟩ := resolveAll_cons h
    rw [filterRefs_cons_some h1]
    cases hp : eventMatch lo hi topic ev with
    | false =>
      rw [if_neg (by simp [hp]), ih acc es' h2 hlt]
      simp [List.filter_cons, hp]
    | true =>
      rw [if_pos (by simp [hp])]
      have hfc : (ev :: es').filter (eventMatch lo hi topic) =
          ev :: es'.filter (eventMatch lo hi topic) := by
        simp [List.filter_cons, hp]
      rw [hfc]
      by_cases hm : max ≤ (acc ++ [ev]).length
      · rw [if_pos hm]
        rw [List.length_append, List.length_cons, List.length_nil] at hm
        have htake : max - acc.length = 1 := by omega
        have hflag : max ≤ acc.length + (ev :: es'.filter (eventMatch lo hi topic)).length := by
          rw [List.length_cons]
          omega
        rw [htake, decide_eq_true hflag, List.take_succ_cons, List.take_zero]
      · rw [if_neg hm]
        rw [List.length_append, List.length_cons, List.length_nil] at hm
        have hlt' : (acc ++ [ev]).length < max := by
          rw [List.length_append, List.length_cons, List.length_nil]
          omega
        rw [ih (acc ++ [ev]) es' h2 hlt']
        have htake : max - acc.length = (max - (acc ++ [ev]).length) + 1 := by
          rw [List.length_append, List.length_cons, List.length_nil]
          omega
        rw [htake, List.take_succ_cons]
        have hlen : (acc ++ [ev]).length + (es'.filter (eventMatch lo hi topic)).length =
            acc.length + (ev :: es'.filter (eventMatch lo hi topic)).length := by
          rw [List.length_append, List.length_cons, List.length_cons, List.length_nil]
          omega
        rw [hlen]
        simp

/-- The outer filter loop, characterised the same way over the
concatenation of the buckets' references. -/
theorem filterBuckets_ok (st : State) (lo hi : Int) (topic : String) (max : Nat) :
    ∀ (bs : List Bucket) (acc es : List Event),
      resolveAll st (bs.flatMap Bucket.EventRefs) = some es → acc.length < max →
      filterBuckets st lo hi topic max bs acc =
        .ok (acc ++ (es.filter (eventMatch lo hi topic)).take (max - acc.length),
             decide (max ≤ acc.length + (es.filter (eventMatch lo hi topic)).length)) := by
  intro bs
  induction bs with
  | nil =>
    intro acc es h hlt
    rw [List.flatMap_nil, resolveAll_nil] at h
    obtain rfl : es = [] := (Option.some_inj.mp h).symm
    rw [filterBuckets_nil, List.filter_nil, List.take_nil, List.append_nil]
    have hflag : ¬ (max ≤ acc.length + ([] : List Event).length) := by
      simp
      omega
    rw [decide_eq_false hflag]
  | cons b bs' ih =>
    intro acc es h hlt
    rw [List.flatMap_cons] at h
    obtain ⟨es₁, es₂, h1, h2, rfl⟩ := resolveAll_append h
    have hr := filterRefs_ok st lo hi topic max b.EventRefs acc es₁ h1 hlt
    rw [List.filter_append]
    by_cases hm : max ≤ acc.length + (es₁.filter (eventMatch lo hi topic)).length
    · rw [decide_eq_true hm] at hr
      rw [filterBuckets_cons_ok hr, if_pos rfl]
      have htake : (es₁.filter (eventMatch lo hi topic) ++
            es₂.filter (eventMatch lo hi topic)).take (max - acc.length) =
          (es₁.filter (eventMatch lo hi topic)).take (max - acc.length) :=
        List.take_append_of_le_length (by omega)
      have hflag : max ≤ acc.length + (es₁.filter (eventMatch lo hi topic) ++
          es₂.filter (eventMatch lo hi topic)).length := by
        rw [List.length_append]
        omega
      rw [htake, decide_eq_true hflag]
    · rw [decide_eq_false hm, List.take_of_length_le (by omega)] at hr
      rw [filterBuckets_cons_ok hr, if_neg (by simp)]
      have hlt' : (acc ++ es₁.filter (eventMatch lo hi topic)).length < max := by
        rw [List.length_append]
        omega
      rw [ih (acc ++ es₁.filter (eventMatch lo hi topic)) es₂ h2 hlt']
      have htake : max - acc.length = (es₁.filter (eventMatch lo hi topic)).length +
          (max - (acc ++ es₁.filter (eventMatch lo hi topic)).length) := by
        rw [List.length_append]
        omega
      have hlen : (acc ++ es₁.filter (eventMatch lo hi topic)).length +
          (es₂.filter (eventMatch lo hi topic)).length =
          acc.length + (es₁.filter (eventMatch lo hi topic) ++
            es₂.filter (eventMatch lo hi topic)).length := by
        rw [List.length_append, List.length_append]
        omega
      rw [htake, List.take_append, hlen]
      simp

/-- C2: a search returns exactly the events stored in the collected
overlapping buckets that satisfy `from <= when < to` and the topic filter,
with the buckets processed oldest-to-newest (the reverse of collection
order), cut off at `searchMax` as soon as that many events have been
collected, in which case — and only then — the result is marked truncated,
so that truncation drops the newest matches. -/
theorem C2_search_semantics (st : State) (now : Int) (max : Nat) (req : SearchRequest)
    (a : Nat) (b : Bucket) (cbs : List (Nat × Bucket)) (rs : List Event)
    (hid : req.idNull = false) (hmax : 1 ≤ max)
    (hlb : getLatestBucket st = .ok (a, b))
    (hcol : collectBuckets st req.From (if req.To = 0 then now else req.To)
      (st.buckets.length + 1) now a b [] = .ok cbs)
    (hres : resolveAll st ((cbs.map Prod.snd).reverse.flatMap Bucket.EventRefs) = some rs) :
    search st now max req =
      .ok ⟨(rs.filter (eventMatch req.From (if req.To = 0 then now else req.To)
              req.Topic)).take max,
           decide (max ≤ (rs.filter (eventMatch req.From (if req.To = 0 then now else req.To)
              req.Topic)).length)⟩ := by
  have hacc : ([] : List Event).length < max := by simp; omega
  have hf := filterBuckets_ok st req.From (if req.To = 0 then now else req.To) req.Topic max
    ((cbs.map Prod.snd).reverse) [] rs hres hacc
  simp only [search, hid, Bool.false_eq_true, if_false, hlb, hcol, hf]
  simp

theorem C2_search_semantics_witness :
    search ⟨[(8, ⟨7 * nanosPerSecond, some 2, [7]⟩), (2, ⟨0, some 3, [1, 4]⟩),
        (2, ⟨0, some 3, [1]⟩), (3, ⟨0, none, []⟩)],
        [(7, evT7), (4, evT3), (1, evT0)], some 8⟩
      (10 * nanosPerSecond) 2 ⟨false, 0, 8 * nanosPerSecond, ""⟩ =
      .ok ⟨[evT0, evT3], true⟩ := by
  rw [C2_search_semantics ⟨[(8, ⟨7 * nanosPerSecond, some 2, [7]⟩), (2, ⟨0, some 3, [1, 4]⟩),
      (2, ⟨0, some 3, [1]⟩), (3, ⟨0, none, []⟩)], [(7, evT7), (4, evT3), (1, evT0)], some 8⟩
    (10 * nanosPerSecond) 2 ⟨false, 0, 8 * nanosPerSecond, ""⟩ 8 ⟨7 * nanosPerSecond, some 2, [7]⟩
    [(8, ⟨7 * nanosPerSecond, some 2, [7]⟩), (2, ⟨0, some 3, [1, 4]⟩), (3, ⟨0, none, []⟩)]
    [evT0, evT3, evT7] rfl (by omega) rfl rfl rfl]
  rfl

/-! ## The collection walk against the abstract chain -/

theorem collectBuckets_eq (st : State) (lo hi : Int) :
    ∀ (rest : List (Nat × Bucket)) (a : Nat) (b : Bucket) (fuel : Nat) (bEnd : Int)
      (acc : List (Nat × Bucket)),
      IsChain st ((a, b) :: rest) → ((a, b) :: rest).length ≤ fuel →
      collectBuckets st lo hi fuel bEnd a b acc =
        .ok (acc ++ collectSpecAux lo hi bEnd ((a, b) :: rest)) := by
  intro rest
  induction rest with
  | nil =>
    intro a b fuel bEnd acc hc hf
    obtain ⟨hlinks, _⟩ := hc
    have hprev : b.Prev = none := hlinks
    have hfirst : b.isFirst = true := by simp [Bucket.isFirst, hprev]
    cases fuel with
    | zero => simp at hf
    | succ f =>
      by_cases hstop : bEnd < lo
      · simp [collectBuckets, collectSpecAux, hstop]
      · by_cases hskip : hi < b.Start
        · simp [collectBuckets, collectSpecAux, hstop, hskip, hfirst]
        · simp [collectBuckets, collectSpecAux, hstop, hskip, hfirst]
  | cons y rest' ih =>
    intro a b fuel bEnd acc hc hf
    obtain ⟨hlinks, hlook⟩ := hc
    obtain ⟨y1, y2⟩ := y
    have hblink : b.Prev = some y1 := hlinks.1
    have hfirst : b.isFirst = false := by simp [Bucket.isFirst, hblink]
    have hlooky : getBucketByID st y1 = some y2 :=
      hlook (y1, y2) (List.mem_cons_of_mem _ (List.mem_cons_self _ _))
    have hchain' : IsChain st ((y1, y2) :: rest') :=
      ⟨hlinks.2, fun z hz => hlook z (List.mem_cons_of_mem _ hz)⟩
    cases fuel with
    | zero => simp at hf
    | succ f =>
      have hf' : ((y1, y2) :: rest').length ≤ f := by
        simp at hf ⊢
        omega
      by_cases hstop : bEnd < lo
      · simp [collectBuckets, collectSpecAux, hstop]
      · by_cases hskip : hi < b.Start
        · have hrec := ih y1 y2 f b.Start acc hchain' hf'
          simp [collectBuckets, hstop, hskip, hfirst, hblink, hlooky, hrec,
            collectSpecAux]
        · have hrec := ih y1 y2 f b.Start (acc ++ [(a, b)]) hchain' hf'
          simp [collectBuckets, hstop, hskip, hfirst, hblink, hlooky, hrec,
            collectSpecAux]

theorem chain_length_le {st : State} {L : List (Nat × Bucket)}
    (hlk : LookupsOK st L) (hnd : (L.map Prod.fst).Nodup) :
    L.length ≤ st.buckets.length := by
  have hsub : (L.map Prod.fst).toFinset ⊆ (st.buckets.map Prod.fst).toFinset := by
    intro z hz
    rw [List.mem_toFinset] at hz ⊢
    obtain ⟨x, hx, rfl⟩ := List.mem_map.mp hz
    exact findVal_mem_fst (hlk x hx)
  calc L.length = (L.map Prod.fst).length := by simp
    _ = (L.map Prod.fst).toFinset.card := (List.toFinset_card_of_nodup hnd).symm
    _ ≤ (st.buckets.map Prod.fst).toFinset.card := Finset.card_le_card hsub
    _ ≤ (st.buckets.map Prod.fst).length := List.toFinset_card_le _
    _ = st.buckets.length := by simp

/-! ## Resolution helpers -/

theorem resolveAll_cons_of {st : State} {r : Nat} {rs : List Nat} {ev : Event}
    {es : List Event} (h1 : getEventByID st r = some ev) (h2 : resolveAll st rs = some es) :
    resolveAll st (r :: rs) = some (ev :: es) := by
  rw [resolveAll, List.mapM_cons, h1]
  rw [resolveAll] at h2
  rw [h2]
  rfl

theorem resolveAll_append_of {st : State} :
    ∀ {l₁ l₂ : List Nat} {es₁ es₂ : List Event},
      resolveAll st l₁ = some es₁ → resolveAll st l₂ = some es₂ →
      resolveAll st (l₁ ++ l₂) = some (es₁ ++ es₂) := by
  intro l₁
  induction l₁ with
  | nil =>
    intro l₂ es₁ es₂ h1 h2
    rw [resolveAll_nil] at h1
    obtain rfl : es₁ = [] := (Option.some_inj.mp h1).symm
    simpa using h2
  | cons r rs ih =>
    intro l₂ es₁ es₂ h1 h2
    obtain ⟨ev, es', hr, hrs, rfl⟩ := resolveAll_cons h1
    rw [List.cons_append]
    exact resolveAll_cons_of hr (ih hrs h2)

theorem resolveAll_of_forall {st : State} {P : Event → Prop} :
    ∀ {refs : List Nat}, (∀ r ∈ refs, ∃ e, getEventByID st r = some e ∧ P e) →
      ∃ es, resolveAll st refs = some es ∧ ∀ e ∈ es, P e := by
  intro refs
  induction refs with
  | nil => intro _; exact ⟨[], resolveAll_nil st, by simp⟩
  | cons r rs ih =>
    intro h
    obtain ⟨e, he, hpe⟩ := h r (List.mem_cons_self _ _)
    obtain ⟨es, hes, hall⟩ := ih fun r' hr' => h r' (List.mem_cons_of_mem _ hr')
    refine ⟨e :: es, resolveAll_cons_of he hes, ?_⟩
    intro e' he'
    rcases List.mem_cons.mp he' with rfl | he'
    · exact hpe
    · exact hall e' he'

/-! ## The matched sequence of a window over a chain -/

theorem windowMatches_nil (st : State) (lo hi : Int) (topic : String) (bEnd : Int) :
    windowMatches st lo hi topic bEnd [] = some [] := rfl

theorem windowMatches_stop (st : State) (lo hi : Int) (topic : String) {bEnd : Int}
    (x : Nat × Bucket) (rest : List (Nat × Bucket)) (hstop : bEnd < lo) :
    windowMatches st lo hi topic bEnd (x :: rest) = some [] := by
  simp [windowMatches, collectSpecAux, hstop, resolveAll_nil]

theorem collectFlat_cons (lo hi : Int) {bEnd : Int} (x : Nat × Bucket)
    (rest : List (Nat × Bucket)) (hstop : ¬ (bEnd < lo)) :
    ((collectSpecAux lo hi bEnd (x :: rest)).map Prod.snd).reverse.flatMap Bucket.EventRefs =
      (((collectSpecAux lo hi x.2.Start rest).map Prod.snd).reverse.flatMap
        Bucket.EventRefs) ++ (if hi < x.2.Start then [] else x.2.EventRefs) := by
  by_cases hskip : hi < x.2.Start
  · simp [collectSpecAux, hstop, hskip]
  · simp [collectSpecAux, hstop, hskip, List.flatMap_append]

theorem eventMatch_ge {lo lo' hi : Int} {topic : String} (hlo : lo ≤ lo') (e : Event) :
    eventMatch lo' hi topic e = (eventMatch lo hi topic e && decide (lo' ≤ e.When)) := by
  by_cases h1 : lo' ≤ e.When
  · have h0 : lo ≤ e.When := le_trans hlo h1
    simp [eventMatch, h1, h0]
  · simp [eventMatch, h1]

/-- Under the running bound, every reference of the collected buckets
resolves, and the matched sequence exists; its members match the window
and are bounded by `bEnd`. -/
theorem windowMatches_exists (st : State) (lo hi : Int) (topic : String) :
    ∀ (L : List (Nat × Bucket)) (bEnd : Int), BEndBound st bEnd L →
      ∃ M, windowMatches st lo hi topic bEnd L = some M ∧
        ∀ e ∈ M, eventMatch lo hi topic e = true ∧ e.When ≤ bEnd := by
  intro L
  induction L with
  | nil => intro bEnd _; exact ⟨[], windowMatches_nil st lo hi topic bEnd, by simp⟩
  | cons x rest ih =>
    intro bEnd hb
    simp only [BEndBound] at hb
    obtain ⟨hst, hev, hrest⟩ := hb
    by_cases hstop : bEnd < lo
    · exact ⟨[], windowMatches_stop st lo hi topic x rest hstop, by simp⟩
    · obtain ⟨Mr, hMr, hMrP⟩ := ih x.2.Start hrest
      obtain ⟨rsr, hrsr, hfil⟩ := Option.map_eq_some'.mp hMr
      obtain ⟨ex, hex, hexP⟩ := resolveAll_of_forall (P := fun e => e.When ≤ bEnd) hev
      by_cases hskip : hi < x.2.Start
      · refine ⟨Mr, ?_, ?_⟩
        · rw [windowMatches, collectFlat_cons lo hi x rest hstop, if_pos hskip,
            List.append_nil, hrsr]
          simp [hfil]
        · intro e he
          obtain ⟨h1, h2⟩ := hMrP e he
          exact ⟨h1, le_trans h2 hst⟩
      · refine ⟨Mr ++ ex.filter (eventMatch lo hi topic), ?_, ?_⟩
        · rw [windowMatches, collectFlat_cons lo hi x rest hstop, if_neg hskip,
            resolveAll_append_of hrsr hex]
          simp [List.filter_append, hfil]
        · intro e he
          rcases List.mem_append.mp he with he | he
          · obtain ⟨h1, h2⟩ := hMrP e he
            exact ⟨h1, le_trans h2 hst⟩
          · obtain ⟨hmem, hmatch⟩ := List.mem_filter.mp he
            exact ⟨hmatch, hexP e hmem⟩

/-- Raising the lower bound of the window restricts the matched sequence
to the events at or above the new bound: the buckets the walk no longer
visits hold only events below it. -/
theorem windowMatches_mono (st : State) {lo lo' : Int} (hi : Int) (topic : String)
    (hlo : lo ≤ lo') :
    ∀ (L : List (Nat × Bucket)) (bEnd : Int) (M : List Event), BEndBound st bEnd L →
      windowMatches st lo hi topic bEnd L = some M →
      windowMatches st lo' hi topic bEnd L = some
        (M.filter (fun e => decide (lo' ≤ e.When))) := by
  intro L
  induction L with
  | nil =>
    intro bEnd M _ hM
    rw [windowMatches_nil] at hM
    obtain rfl : M = [] := (Option.some_inj.mp hM).symm
    rw [windowMatches_nil]
    rfl
  | cons x rest ih =>
    intro bEnd M hb hM
    have hb' := hb
    simp only [BEndBound] at hb'
    obtain ⟨hst, hev, hrest⟩ := hb'
    by_cases hstop' : bEnd < lo'
    · have hMbound : ∀ e ∈ M, e.When ≤ bEnd := by
        obtain ⟨M'', hM'', hP⟩ := windowMatches_exists st lo hi topic (x :: rest) bEnd hb
        rw [hM] at hM''
        obtain rfl : M = M'' := Option.some_inj.mp hM''
        exact fun e he => (hP e he).2
      have hfilter : M.filter (fun e => decide (lo' ≤ e.When)) = [] := by
        rw [List.filter_eq_nil_iff]
        intro e he
        have := hMbound e he
        simp
        omega
      rw [hfilter]
      exact windowMatches_stop st lo' hi topic x rest hstop'
    · have hstop : ¬ (bEnd < lo) := by omega
      rw [windowMatches, collectFlat_cons lo hi x rest hstop] at hM
      by_cases hskip : hi < x.2.Start
      · rw [if_pos hskip, List.append_nil] at hM
        have hMr : windowMatches st lo hi topic x.2.Start rest = some M := hM
        have hrec := ih x.2.Start M hrest hMr
        rw [windowMatches, collectFlat_cons lo' hi x rest (by omega), if_pos hskip,
          List.append_nil]
        exact hrec
      · rw [if_neg hskip] at hM
        obtain ⟨rs, hrs, hfilM⟩ := Option.map_eq_some'.mp hM
        obtain ⟨rsr, ex, hrsr, hex, rfl⟩ := resolveAll_append hrs
        have hMr : windowMatches st lo hi topic x.2.Start rest =
            some (rsr.filter (eventMatch lo hi topic)) := by
          rw [windowMatches, hrsr]
          rfl
        have hrec := ih x.2.Start (rsr.filter (eventMatch lo hi topic)) hrest hMr
        obtain ⟨rsr', hrsr', hfil'⟩ := Option.map_eq_some'.mp hrec
        have hexeq : ex.filter (eventMatch lo' hi topic) =
            (ex.filter (eventMatch lo hi topic)).filter
              (fun e => decide (lo' ≤ e.When)) := by
          rw [List.filter_filter]
          exact List.filter_congr fun e _ => by
            rw [eventMatch_ge hlo e, Bool.and_comm]
        rw [windowMatches, collectFlat_cons lo' hi x rest (by omega), if_neg hskip,
          resolveAll_append_of hrsr' hex]
        rw [← hfilM]
        simp only [List.filter_append, hfil', hexeq, Option.map_some']

/-! ## State-extension and chain-surgery helpers -/

theorem findVal_fresh {l : List (Nat × α)} {k : Nat} (hk : k ∉ l.map Prod.fst) (v : α)
    {a : Nat} {x : α} (h : findVal a l = some x) : findVal a ((k, v) :: l) = some x := by
  have hne : k ≠ a := fun he => hk (he ▸ findVal_mem_fst h)
  rw [findVal_cons_ne _ _ hne]
  exact h

theorem applyScs_append (st : State) (tx : Instruction) (e : Event) (bID : Nat) (b : Bucket) :
    applyScs st (appendScs tx e bID b) =
      ⟨(bID, ⟨b.Start, b.Prev, b.EventRefs ++ [tx.objectID]⟩) :: st.buckets,
       (tx.objectID, e) :: st.events, st.head⟩ := rfl

theorem applyScs_newHead (st : State) (tx : Instruction) (e : Event) (bID : Nat) :
    applyScs st (newHeadScs tx e bID) =
      ⟨(tx.bucketID, ⟨e.When, some bID, [tx.objectID]⟩) :: st.buckets,
       (tx.objectID, e) :: st.events, some tx.bucketID⟩ := rfl

theorem applyScs_bootstrap (st : State) (tx : Instruction) (e : Event) :
    applyScs st
        [⟨.create, tx.objectID, .ev e⟩,
         ⟨.create, tx.catchAllID, .bk ⟨0, none, []⟩⟩,
         ⟨.create, tx.bucketID, .bk ⟨e.When, some tx.catchAllID, [tx.objectID]⟩⟩,
         ⟨.create, theEventLog, .ptr tx.bucketID⟩] =
      ⟨(tx.bucketID, ⟨e.When, some tx.catchAllID, [tx.objectID]⟩) ::
         (tx.catchAllID, ⟨0, none, []⟩) :: st.buckets,
       (tx.objectID, e) :: st.events, some tx.bucketID⟩ := rfl

theorem argSearch_event (v : Option Event) : argSearch "event" [("event", v)] = some v := by
  simp [argSearch]

theorem bucketEventsLE_mono_cap {st : State} {c c' : Int} {b : Bucket} (h : c ≤ c')
    (hb : BucketEventsLE st c b) : BucketEventsLE st c' b := by
  intro r hr
  obtain ⟨e, he, hle⟩ := hb r hr
  exact ⟨e, he, le_trans hle h⟩

theorem capsOK_head_mono {st : State} {c c' : Int} {L : List (Nat × Bucket)} (h : c ≤ c')
    (hc : CapsOK st c L) : CapsOK st c' L := by
  cases L with
  | nil => simp [CapsOK]
  | cons x rest =>
    simp only [CapsOK] at hc ⊢
    exact ⟨bucketEventsLE_mono_cap h hc.1, hc.2⟩

theorem capsOK_mono_state {st st' : State}
    (hm : ∀ r e, getEventByID st r = some e → getEventByID st' r = some e) :
    ∀ (L : List (Nat × Bucket)) (cap : Int), CapsOK st cap L → CapsOK st' cap L := by
  intro L
  induction L with
  | nil => intro cap _; simp [CapsOK]
  | cons x rest ih =>
    intro cap hc
    simp only [CapsOK] at hc ⊢
    refine ⟨?_, ih _ hc.2⟩
    intro r hr
    obtain ⟨e, he, hle⟩ := hc.1 r hr
    exact ⟨e, hm r e he, hle⟩

theorem chainLinks_replace : ∀ (L₁ : List (Nat × Bucket)) {L₂ : List (Nat × Bucket)}
    {a : Nat} {b b' : Bucket}, ChainLinks (L₁ ++ (a, b) :: L₂) → b'.Prev = b.Prev →
    ChainLinks (L₁ ++ (a, b') :: L₂) := by
  intro L₁
  induction L₁ with
  | nil =>
    intro L₂ a b b' hc hp
    cases L₂ with
    | nil =>
      have : b.Prev = none := hc
      simp only [List.nil_append, ChainLinks]
      rw [hp, this]
    | cons y L₂' =>
      simp only [List.nil_append, ChainLinks] at hc ⊢
      exact ⟨hp ▸ hc.1, hc.2⟩
  | cons z L₁' ih =>
    intro L₂ a b b' hc hp
    cases hL : L₁' with
    | nil =>
      subst hL
      simp only [List.cons_append, List.nil_append, ChainLinks] at hc ⊢
      exact ⟨hc.1, ih hc.2 hp⟩
    | cons y L₁'' =>
      subst hL
      simp only [List.cons_append, ChainLinks] at hc ⊢
      exact ⟨hc.1, ih hc.2 hp⟩

theorem startsOK_replace : ∀ (L₁ : List (Nat × Bucket)) {L₂ : List (Nat × Bucket)}
    {a : Nat} {b b' : Bucket}, StartsOK (L₁ ++ (a, b) :: L₂) → b'.Start = b.Start →
    StartsOK (L₁ ++ (a, b') :: L₂) := by
  intro L₁
  induction L₁ with
  | nil =>
    intro L₂ a b b' hs hst
    cases L₂ with
    | nil =>
      have : b.Start = 0 := hs
      simp only [List.nil_append, StartsOK]
      rw [hst, this]
    | cons y L₂' =>
      simp only [List.nil_append, StartsOK] at hs ⊢
      rw [hst]
      exact hs
  | cons z L₁' ih =>
    intro L₂ a b b' hs hst
    cases hL : L₁' with
    | nil =>
      subst hL
      simp only [List.cons_append, List.nil_append, StartsOK] at hs ⊢
      rw [hst]
      exact ⟨hs.1, hs.2.1, ih hs.2.2 hst⟩
    | cons y L₁'' =>
      subst hL
      simp only [List.cons_append, StartsOK] at hs ⊢
      exact ⟨hs.1, hs.2.1, ih hs.2.2 hst⟩

theorem capsOK_replace {st : State} {obj : Nat} {enew : Event}
    (hobj : getEventByID st obj = some enew) :
    ∀ (L₁ : List (Nat × Bucket)) {L₂ : List (Nat × Bucket)} {a : Nat} {b : Bucket} (cap : Int),
      CapsOK st cap (L₁ ++ (a, b) :: L₂) → enew.When ≤ capAfter cap L₁ →
      CapsOK st cap (L₁ ++ (a, ⟨b.Start, b.Prev, b.EventRefs ++ [obj]⟩) :: L₂) := by
  intro L₁
  induction L₁ with
  | nil =>
    intro L₂ a b cap hc hw
    simp only [List.nil_append, CapsOK] at hc ⊢
    refine ⟨?_, hc.2⟩
    intro r hr
    rcases List.mem_append.mp hr with hr | hr
    · exact hc.1 r hr
    · obtain rfl : r = obj := by simpa using hr
      exact ⟨enew, hobj, hw⟩
  | cons z L₁' ih =>
    intro L₂ a b cap hc hw
    simp only [List.cons_append, CapsOK] at hc ⊢
    exact ⟨hc.1, ih _ hc.2 hw⟩

theorem capAfter_bound {w : Int} : ∀ (L₁ : List (Nat × Bucket)) (cap : Int),
    L₁ ≠ [] → (∀ x ∈ L₁, w < x.2.Start) → w ≤ capAfter cap L₁ := by
  intro L₁
  induction L₁ with
  | nil => intro cap h _; exact absurd rfl h
  | cons z L₁' ih =>
    intro cap _ hall
    cases hL : L₁' with
    | nil =>
      subst hL
      have := hall z (List.mem_cons_self _ _)
      simp only [capAfter]
      omega
    | cons y L₁'' =>
      subst hL
      simp only [capAfter]
      exact ih (z.2.Start - 1) (by simp) fun x hx => hall x (List.mem_cons_of_mem _ hx)

theorem lookupsOK_replace {st : State} {L₁ L₂ : List (Nat × Bucket)} {a : Nat} {b b' : Bucket}
    {evs : List (Nat × Event)} {hd : Option Nat}
    (hlk : LookupsOK st (L₁ ++ (a, b) :: L₂))
    (hnd : ((L₁ ++ (a, b) :: L₂).map Prod.fst).Nodup) :
    LookupsOK ⟨(a, b') :: st.buckets, evs, hd⟩ (L₁ ++ (a, b') :: L₂) := by
  have hndsplit := List.nodup_append.mp (by simpa using hnd)
  intro x hx
  rcases List.mem_append.mp hx with hx1 | hx2
  · have hne : x.1 ≠ a := by
      intro he
      have h1 : x.1 ∈ L₁.map Prod.fst := List.mem_map.mpr ⟨x, hx1, rfl⟩
      have h2 : a ∈ ((a, b) :: L₂).map Prod.fst := by simp
      exact hndsplit.2.2 h1 (he ▸ h2)
    have : getBucketByID st x.1 = some x.2 :=
      hlk x (List.mem_append.mpr (Or.inl hx1))
    show findVal x.1 ((a, b') :: st.buckets) = some x.2
    rw [findVal_cons_ne _ _ (fun he => hne he.symm)]
    exact this
  · rcases List.mem_cons.mp hx2 with rfl | hx2
    · show findVal a ((a, b') :: st.buckets) = some b'
      rw [findVal_cons]
      simp
    · have hne : x.1 ≠ a := by
        intro he
        have h3 : ((a, b) :: L₂).map Prod.fst = a :: L₂.map Prod.fst := by simp
        have h4 : (a :: L₂.map Prod.fst).Nodup := h3 ▸ hndsplit.2.1
        have h5 : a ∈ L₂.map Prod.fst := List.mem_map.mpr ⟨x, hx2, he⟩
        exact (List.nodup_cons.mp h4).1 h5
      have : getBucketByID st x.1 = some x.2 :=
        hlk x (List.mem_append.mpr (Or.inr (List.mem_cons_of_mem _ hx2)))
      show findVal x.1 ((a, b') :: st.buckets) = some x.2
      rw [findVal_cons_ne _ _ (fun he => hne he.symm)]
      exact this

theorem head_fst_replace (L₁ L₂ : List (Nat × Bucket)) (a : Nat) (b b' : Bucket) :
    (L₁ ++ (a, b') :: L₂).head?.map Prod.fst = (L₁ ++ (a, b) :: L₂).head?.map Prod.fst := by
  cases L₁ <;> rfl

theorem headCap_replace (L₁ L₂ : List (Nat × Bucket)) (a : Nat) {b b' : Bucket}
    (h : b'.Start = b.Start) :
    headCap (L₁ ++ (a, b') :: L₂) = headCap (L₁ ++ (a, b) :: L₂) := by
  cases L₁ with
  | nil => simp [headCap, h]
  | cons z L₁' => rfl

/-! ## From the writer invariant to the running bound -/

theorem bend_core (st : State) :
    ∀ (L : List (Nat × Bucket)) (bEnd : Int), CapsOK st (bEnd - 1) L → StartsOK L →
      (∀ x, L.head? = some x → x.2.Start < bEnd) → BEndBound st bEnd L := by
  intro L
  induction L with
  | nil => intro bEnd _ _ _; simp [BEndBound]
  | cons x rest ih =>
    intro bEnd hcaps hstarts hh
    simp only [CapsOK] at hcaps
    obtain ⟨hble, hcaps'⟩ := hcaps
    have hxlt : x.2.Start < bEnd := hh x rfl
    simp only [BEndBound]
    refine ⟨le_of_lt hxlt, ?_, ?_⟩
    · intro r hr
      obtain ⟨e, he, hle⟩ := hble r hr
      exact ⟨e, he, by omega⟩
    · cases rest with
      | nil => simp [BEndBound]
      | cons y rest' =>
        obtain ⟨a, b⟩ := x
        obtain ⟨c, d⟩ := y
        simp only [StartsOK] at hstarts
        exact ih b.Start hcaps' hstarts.2.2 fun z hz => by
          have hzz : (c, d) = z := by injection hz
          rw [← hzz]
          exact hstarts.1

theorem inv_bendBound {es : List (Event × TxIDs)} {st : State} {L : List (Nat × Bucket)}
    {now : Int} (hinv : Inv es st L) (hnow : ∀ p ∈ es, p.1.When ≤ now) (h0 : 0 ≤ now) :
    BEndBound st now L := by
  cases hL : L with
  | nil => simp [BEndBound]
  | cons x rest =>
    have hcaps := hinv.capsOK
    rw [hL] at hcaps
    have hhc : headCap (x :: rest) = x.2.Start + bucketMaxAge := rfl
    rw [hhc] at hcaps
    simp only [CapsOK] at hcaps
    obtain ⟨hble, hcaps'⟩ := hcaps
    have hstarts := hinv.startsOK
    rw [hL] at hstarts
    simp only [BEndBound]
    refine ⟨?_, ?_, ?_⟩
    · rcases hinv.startsFrom x (hL ▸ List.mem_cons_self x rest) with h | ⟨p, hp, hps⟩
      · omega
      · rw [hps]
        exact hnow p hp
    · intro r hr
      obtain ⟨e, he, _⟩ := hble r hr
      refine ⟨e, he, ?_⟩
      have hmem : (r, e) ∈ st.events := findVal_mem he
      obtain ⟨_, hev⟩ := hinv.evStore (r, e) hmem
      obtain ⟨p, hp, hpe⟩ := List.mem_map.mp hev
      have hpe' : p.1 = e := hpe
      rw [← hpe']
      exact hnow p hp
    · cases rest with
      | nil => simp [BEndBound]
      | cons y rest' =>
        obtain ⟨a, b⟩ := x
        obtain ⟨c, d⟩ := y
        simp only [StartsOK] at hstarts
        exact bend_core st ((c, d) :: rest') b.Start hcaps' hstarts.2.2 fun z hz => by
          have hzz : (c, d) = z := by injection hz
          rw [← hzz]
          exact hstarts.1

/-! ## Preservation of the writer invariant -/

theorem sub_objectIDs {es : List (Event × TxIDs)} :
    ∀ i ∈ es.map (fun p => p.2.objectID), i ∈ allAddrs es := by
  intro i hi
  obtain ⟨p, hp, rfl⟩ := List.mem_map.mp hi
  exact List.mem_flatMap.mpr ⟨p, hp, by simp [txAddrs]⟩

theorem sub_bucketIDs {es : List (Event × TxIDs)} :
    ∀ i ∈ es.flatMap (fun p => [p.2.bucketID, p.2.catchAllID]), i ∈ allAddrs es := by
  intro i hi
  obtain ⟨p, hp, hmem⟩ := List.mem_flatMap.mp hi
  refine List.mem_flatMap.mpr ⟨p, hp, ?_⟩
  simp [txAddrs] at hmem ⊢
  tauto

theorem insert_preserve {es : List (Event × TxIDs)} {e : Event} {ids : TxIDs} {st : State}
    {L : List (Nat × Bucket)} (hinv : Inv es st L)
    (hpos : 0 < e.When)
    (hnd3 : (txAddrs ids).Nodup)
    (hnew : ∀ i ∈ txAddrs ids, i ∉ allAddrs es) :
    ∃ st' L', insertEvent st e.When e ids = .ok st' ∧ Inv (es ++ [(e, ids)]) st' L' := by
  have hmaxpos : (0 : Int) < bucketMaxAge := by norm_num [bucketMaxAge, nanosPerSecond]
  have hefresh : ∀ k ∈ st.events.map Prod.fst, k ∈ allAddrs es := by
    intro k hk
    obtain ⟨q, hq, rfl⟩ := List.mem_map.mp hk
    exact sub_objectIDs q.1 (hinv.evStore q hq).1
  have hbfresh : ∀ k ∈ st.buckets.map Prod.fst, k ∈ allAddrs es := by
    intro k hk
    obtain ⟨q, hq, rfl⟩ := List.mem_map.mp hk
    exact sub_bucketIDs _ (hinv.bkStore q hq)
  have hobjfresh : ids.objectID ∉ st.events.map Prod.fst := by
    intro h
    exact hnew ids.objectID (by simp [txAddrs]) (hefresh _ h)
  have hnidfresh : ids.bucketID ∉ st.buckets.map Prod.fst := by
    intro h
    exact hnew ids.bucketID (by simp [txAddrs]) (hbfresh _ h)
  have hcidfresh : ids.catchAllID ∉ st.buckets.map Prod.fst := by
    intro h
    exact hnew ids.catchAllID (by simp [txAddrs]) (hbfresh _ h)
  have hdecode : decodeAndCheckEvent (some e) e.When = .ok e :=
    decodeAndCheckEvent_ok (by simp only [nanosPerSecond]; omega) le_rfl
  have hevmono : ∀ (bks : List (Nat × Bucket)) (hd : Option Nat) (r : Nat) (ev : Event),
      getEventByID st r = some ev →
      getEventByID ⟨bks, (ids.objectID, e) :: st.events, hd⟩ r = some ev := by
    intro bks hd r ev h
    show findVal r ((ids.objectID, e) :: st.events) = some ev
    exact findVal_fresh hobjfresh e h
  have hobjlook : ∀ (bks : List (Nat × Bucket)) (hd : Option Nat),
      getEventByID ⟨bks, (ids.objectID, e) :: st.events, hd⟩ ids.objectID = some e := by
    intro bks hd
    show findVal ids.objectID ((ids.objectID, e) :: st.events) = some e
    rw [findVal_cons]
    simp
  cases L with
  | nil =>
    have hhead : st.head = none := by rw [hinv.headOK]; rfl
    have hlb : getLatestBucket st = .error .indexMissing := by
      simp [getLatestBucket, hhead]
    have hcf : contractFunction st e.When (mkSpawnTx e ids) =
        .ok [⟨.create, ids.objectID, .ev e⟩,
             ⟨.create, ids.catchAllID, .bk ⟨0, none, []⟩⟩,
             ⟨.create, ids.bucketID, .bk ⟨e.When, some ids.catchAllID, [ids.objectID]⟩⟩,
             ⟨.create, theEventLog, .ptr ids.bucketID⟩] := by
      simp [contractFunction, mkSpawnTx, argSearch_event, hdecode, hlb]
    have hnidcid : ids.bucketID ≠ ids.catchAllID := by
      have h := hnd3
      simp [txAddrs, List.nodup_cons] at h
      tauto
    refine ⟨⟨(ids.bucketID, ⟨e.When, some ids.catchAllID, [ids.objectID]⟩) ::
        (ids.catchAllID, ⟨0, none, []⟩) :: st.buckets,
        (ids.objectID, e) :: st.events, some ids.bucketID⟩,
      [(ids.bucketID, ⟨e.When, some ids.catchAllID, [ids.objectID]⟩),
       (ids.catchAllID, ⟨0, none, []⟩)], ?_, ?_⟩
    · rw [insertEvent, hcf]
      rfl
    · refine ⟨rfl, ⟨?_, ?_⟩, ?_, ?_, ?_, ?_, ?_, ?_⟩
      · simp [ChainLinks]
      · intro x hx
        rcases List.mem_cons.mp hx with rfl | hx
        · show findVal ids.bucketID _ = _
          rw [findVal_cons]
          simp
        · rcases List.mem_cons.mp hx with rfl | hx
          · show findVal ids.catchAllID _ = _
            rw [findVal_cons_ne _ _ hnidcid, findVal_cons]
            simp
          · simp at hx
      · simp [hnidcid]
      · exact ⟨hpos, hpos, rfl⟩
      · have hcap : headCap [(ids.bucketID, ⟨e.When, some ids.catchAllID, [ids.objectID]⟩),
            (ids.catchAllID, ⟨0, none, []⟩)] = e.When + bucketMaxAge := rfl
        rw [hcap]
        refine ⟨?_, ?_, trivial⟩
        · intro r hr
          obtain rfl : r = ids.objectID := by simpa using hr
          exact ⟨e, hobjlook _ _, by omega⟩
        · intro r hr
          simp at hr
      · intro x hx
        rcases List.mem_cons.mp hx with rfl | hx
        · exact Or.inr ⟨(e, ids), by simp, rfl⟩
        · rcases List.mem_cons.mp hx with rfl | hx
          · exact Or.inl rfl
          · simp at hx
      · intro q hq
        rcases List.mem_cons.mp hq with rfl | hq
        · constructor
          · simp
          · simp
        · obtain ⟨h1, h2⟩ := hinv.evStore q hq
          constructor
          · simp only [List.map_append]
            exact List.mem_append_left _ h1
          · simp only [List.map_append]
            exact List.mem_append_left _ h2
      · intro q hq
        rcases List.mem_cons.mp hq with rfl | hq
        · simp
        · rcases List.mem_cons.mp hq with rfl | hq
          · simp
          · have := hinv.bkStore q hq
            simp only [List.flatMap_append]
            exact List.mem_append_left _ this
  | cons x0 rest =>
    obtain ⟨a0, b0⟩ := x0
    have hhead : st.head = some a0 := by rw [hinv.headOK]; rfl
    have hlook0 : getBucketByID st a0 = some b0 :=
      hinv.chainOK.2 (a0, b0) (List.mem_cons_self _ _)
    have hlb : getLatestBucket st = .ok (a0, b0) := by
      simp [getLatestBucket, hhead, hlook0]
    have hlen : ((a0, b0) :: rest).length ≤ st.buckets.length + 1 := by
      have := chain_length_le hinv.chainOK.2 hinv.nodupOK
      omega
    obtain ⟨s, hfind, hwalk⟩ := walkBack_spec st e.When rest a0 b0
      (st.buckets.length + 1) true hinv.chainOK hlen
    obtain ⟨sa, sb⟩ := s
    have hcf := contract_cases st e.When (mkSpawnTx e ids) ⟨[("event", some e)]⟩ e
      a0 sa b0 sb (true && stopOn e.When (a0, b0)) rfl rfl rfl (argSearch_event _)
      (by simp only [nanosPerSecond]; omega) le_rfl hlb hwalk
    obtain ⟨L₁, L₂, happ, hfail, hstop_s⟩ := find?_split hfind
    have hchainaddr : ∀ x ∈ (a0, b0) :: rest, x.1 ∈ st.buckets.map Prod.fst :=
      fun x hx => findVal_mem_fst (hinv.chainOK.2 x hx)
    by_cases hcond : ((true && stopOn e.When (a0, b0)) &&
        decide (bucketMaxAge < e.When - sb.Start)) = true
    · -- New-head case: the walk stopped at the head and the event is too old.
      have hstop0 : stopOn e.When (a0, b0) = true := by
        rcases Bool.and_eq_true_iff.mp hcond with ⟨h1, _⟩
        exact (Bool.and_eq_true_iff.mp h1).2
      have hlt : bucketMaxAge < e.When - sb.Start := by
        rcases Bool.and_eq_true_iff.mp hcond with ⟨_, h2⟩
        exact of_decide_eq_true h2
      have hfind' : some ((a0, b0) : Nat × Bucket) = some (sa, sb) := by
        rw [stopSpec] at hfind
        rw [List.find?_cons_of_pos _ hstop0] at hfind
        exact hfind
      have hpair : ((a0, b0) : Nat × Bucket) = (sa, sb) := Option.some_inj.mp hfind'
      obtain ⟨rfl, rfl⟩ : a0 = sa ∧ b0 = sb := by
        injection hpair with h1 h2
        exact ⟨h1, h2⟩
      rw [if_pos hcond] at hcf
      have hLfresh : ids.bucketID ∉ ((a0, b0) :: rest).map Prod.fst := by
        intro h
        obtain ⟨x, hx, hxx⟩ := List.mem_map.mp h
        exact hnidfresh (hxx ▸ hchainaddr x hx)
      refine ⟨⟨(ids.bucketID, ⟨e.When, some a0, [ids.objectID]⟩) :: st.buckets,
          (ids.objectID, e) :: st.events, some ids.bucketID⟩,
        (ids.bucketID, ⟨e.When, some a0, [ids.objectID]⟩) :: (a0, b0) :: rest, ?_, ?_⟩
      · rw [insertEvent, hcf]
        rfl
      · refine ⟨rfl, ⟨?_, ?_⟩, ?_, ?_, ?_, ?_, ?_, ?_⟩
        · simp only [ChainLinks]
          exact ⟨by simp, hinv.chainOK.1⟩
        · intro x hx
          rcases List.mem_cons.mp hx with rfl | hx
          · show findVal ids.bucketID _ = _
            rw [findVal_cons]
            simp
          · have hne : ids.bucketID ≠ x.1 := by
              intro h
              exact hnidfresh (h ▸ hchainaddr x hx)
            show findVal x.1 ((ids.bucketID, _) :: st.buckets) = some x.2
            rw [findVal_cons_ne _ _ hne]
            exact hinv.chainOK.2 x hx
        · simp only [List.map_cons]
          exact List.nodup_cons.mpr ⟨hLfresh, hinv.nodupOK⟩
        · simp only [StartsOK]
          exact ⟨by omega, hpos, hinv.startsOK⟩
        · have hcap : headCap ((ids.bucketID, ⟨e.When, some a0, [ids.objectID]⟩) ::
              (a0, b0) :: rest) = e.When + bucketMaxAge := rfl
          rw [hcap]
          simp only [CapsOK]
          constructor
          · intro r hr
            obtain rfl : r = ids.objectID := by simpa using hr
            exact ⟨e, hobjlook _ _, by omega⟩
          · have hold := hinv.capsOK
            have hoc : headCap ((a0, b0) :: rest) = b0.Start + bucketMaxAge := rfl
            rw [hoc] at hold
            have hmono := capsOK_mono_state
              (hevmono ((ids.bucketID, ⟨e.When, some a0, [ids.objectID]⟩) :: st.buckets)
                (some ids.bucketID)) _ _ hold
            exact capsOK_head_mono (by omega) hmono
        · intro x hx
          rcases List.mem_cons.mp hx with rfl | hx
          · exact Or.inr ⟨(e, ids), by simp, rfl⟩
          · rcases hinv.startsFrom x hx with h | ⟨p, hp, hps⟩
            · exact Or.inl h
            · exact Or.inr ⟨p, List.mem_append_left _ hp, hps⟩
        · intro q hq
          rcases List.mem_cons.mp hq with rfl | hq
          · exact ⟨by simp, by simp⟩
          · obtain ⟨h1, h2⟩ := hinv.evStore q hq
            exact ⟨by simp only [List.map_append]; exact List.mem_append_left _ h1,
              by simp only [List.map_append]; exact List.mem_append_left _ h2⟩
        · intro q hq
          rcases List.mem_cons.mp hq with rfl | hq
          · simp
          · have := hinv.bkStore q hq
            simp only [List.flatMap_append]
            exact List.mem_append_left _ this
    · -- Append case: the new address is appended to the stopping bucket.
      rw [if_neg hcond] at hcf
      have hsmem : (sa, sb) ∈ (a0, b0) :: rest := by
        rw [happ]
        exact List.mem_append.mpr (Or.inr (List.mem_cons_self _ _))
      have hsa_old : sa ∈ st.buckets.map Prod.fst := hchainaddr (sa, sb) hsmem
      have hbound : e.When ≤ capAfter (headCap ((a0, b0) :: rest)) L₁ := by
        cases hL1 : L₁ with
        | nil =>
          subst hL1
          rw [List.nil_append] at happ
          obtain ⟨ha, hb⟩ : a0 = sa ∧ b0 = sb := by
            injection happ with h1 h2
            injection h1 with ha hb
            exact ⟨ha, hb⟩
          simp only [capAfter]
          have hnh : ¬ (bucketMaxAge < e.When - sb.Start) := by
            intro hlt
            apply hcond
            have : stopOn e.When (a0, b0) = true := by
              rw [ha, hb]
              exact hstop_s
            rw [this]
            simp [hlt]
          have hcap : headCap ((a0, b0) :: rest) = b0.Start + bucketMaxAge := rfl
          rw [hcap, hb]
          omega
        | cons z L₁' =>
          subst hL1
          refine capAfter_bound _ _ (by simp) ?_
          intro x hx
          have := hfail x hx
          simp [stopOn] at this
          omega
      have hcapsS := capsOK_mono_state
        (hevmono ((sa, ⟨sb.Start, sb.Prev, sb.EventRefs ++ [ids.objectID]⟩) :: st.buckets)
          st.head) _ _ hinv.capsOK
      rw [happ] at hcapsS
      have hcaps' := capsOK_replace (hobjlook _ _) L₁ (headCap (L₁ ++ (sa, sb) :: L₂))
        hcapsS (happ ▸ hbound)
      have hchain' := hinv.chainOK
      rw [happ] at hchain'
      have hnodup' := hinv.nodupOK
      rw [happ] at hnodup'
      have hstarts' := hinv.startsOK
      rw [happ] at hstarts'
      refine ⟨⟨(sa, ⟨sb.Start, sb.Prev, sb.EventRefs ++ [ids.objectID]⟩) :: st.buckets,
          (ids.objectID, e) :: st.events, st.head⟩,
        L₁ ++ (sa, ⟨sb.Start, sb.Prev, sb.EventRefs ++ [ids.objectID]⟩) :: L₂, ?_, ?_⟩
      · rw [insertEvent, hcf]
        rfl
      · refine ⟨?_, ⟨?_, ?_⟩, ?_, ?_, ?_, ?_, ?_, ?_⟩
        · show st.head = _
          rw [hinv.headOK, happ,
            head_fst_replace L₁ L₂ sa sb ⟨sb.Start, sb.Prev, sb.EventRefs ++ [ids.objectID]⟩]
        · exact chainLinks_replace L₁ hchain'.1 rfl
        · exact lookupsOK_replace hchain'.2 hnodup'
        · have : (L₁ ++ (sa, ⟨sb.Start, sb.Prev, sb.EventRefs ++ [ids.objectID]⟩) :: L₂).map
              Prod.fst = (L₁ ++ (sa, sb) :: L₂).map Prod.fst := by simp
          rw [this]
          exact hnodup'
        · exact startsOK_replace L₁ hstarts' rfl
        · have hstarteq : (⟨sb.Start, sb.Prev, sb.EventRefs ++ [ids.objectID]⟩ : Bucket).Start
              = sb.Start := rfl
          rw [headCap_replace L₁ L₂ sa hstarteq]
          exact hcaps'
        · intro x hx
          rcases List.mem_append.mp hx with hx1 | hx2
          · rcases hinv.startsFrom x (happ ▸ List.mem_append_left _ hx1) with h | ⟨p, hp, hps⟩
            · exact Or.inl h
            · exact Or.inr ⟨p, List.mem_append_left _ hp, hps⟩
          · rcases List.mem_cons.mp hx2 with rfl | hx2
            · rcases hinv.startsFrom (sa, sb) hsmem with h | ⟨p, hp, hps⟩
              · exact Or.inl h
              · exact Or.inr ⟨p, List.mem_append_left _ hp, hps⟩
            · rcases hinv.startsFrom x
                (happ ▸ List.mem_append_right _ (List.mem_cons_of_mem _ hx2)) with
                h | ⟨p, hp, hps⟩
              · exact Or.inl h
              · exact Or.inr ⟨p, List.mem_append_left _ hp, hps⟩
        · intro q hq
          rcases List.mem_cons.mp hq with rfl | hq
          · exact ⟨by simp, by simp⟩
          · obtain ⟨h1, h2⟩ := hinv.evStore q hq
            exact ⟨by simp only [List.map_append]; exact List.mem_append_left _ h1,
              by simp only [List.map_append]; exact List.mem_append_left _ h2⟩
        · intro q hq
          rcases List.mem_cons.mp hq with rfl | hq
          · have : sa ∈ st.buckets.map Prod.fst := hsa_old
            obtain ⟨q0, hq0, hq0f⟩ := List.mem_map.mp this
            have := hinv.bkStore q0 hq0
            rw [hq0f] at this
            simp only [List.flatMap_append]
            exact List.mem_append_left _ this
          · have := hinv.bkStore q hq
            simp only [List.flatMap_append]
            exact List.mem_append_left _ this

/-- The full characterisation of a search against a state satisfying the
writer invariant: it returns the matched sequence cut at the cap, with the
truncation flag set exactly when the cap is at most the number of
matches. -/
theorem search_spec {es : List (Event × TxIDs)} {st : State} {L : List (Nat × Bucket)}
    {now lo hi : Int} {topic : String} {max : Nat} {M : List Event}
    (hinv : Inv es st L) (hbb : BEndBound st now L)
    (hhi : hi ≠ 0) (hmax : 1 ≤ max)
    (hM : windowMatches st lo hi topic now L = some M) :
    search st now max ⟨false, lo, hi, topic⟩ = .ok ⟨M.take max, decide (max ≤ M.length)⟩ := by
  cases L with
  | nil =>
    rw [windowMatches_nil] at hM
    obtain rfl : M = [] := (Option.some_inj.mp hM).symm
    have hhead : st.head = none := by
      rw [hinv.headOK]
      rfl
    have h1 : search st now max ⟨false, lo, hi, topic⟩ = .ok ⟨[], false⟩ := by
      simp [search, getLatestBucket, hhead]
    have h2 : decide (max ≤ ([] : List Event).length) = false :=
      decide_eq_false (by simp; omega)
    rw [h1, List.take_nil, h2]
  | cons x rest =>
    obtain ⟨a, b⟩ := x
    have hhead : st.head = some a := by
      rw [hinv.headOK]
      rfl
    have hlook : getBucketByID st a = some b :=
      hinv.chainOK.2 (a, b) (List.mem_cons_self _ _)
    have hlb : getLatestBucket st = .ok (a, b) := by
      simp [getLatestBucket, hhead, hlook]
    have hlen : ((a, b) :: rest).length ≤ st.buckets.length + 1 := by
      have := chain_length_le hinv.chainOK.2 hinv.nodupOK
      omega
    have hcol := collectBuckets_eq st lo hi rest a b (st.buckets.length + 1) now []
      hinv.chainOK hlen
    obtain ⟨rs, hrs, hfil⟩ := Option.map_eq_some'.mp hM
    have hacc : ([] : List Event).length < max := by simp; omega
    have hfb := filterBuckets_ok st lo hi topic max
      (((collectSpecAux lo hi now ((a, b) :: rest)).map Prod.snd).reverse) [] rs hrs hacc
    simp only [search, Bool.false_eq_true, if_false, hlb, if_neg hhi, hcol,
      List.nil_append, hfb, hfil]
    simp

/-- Every sequence of accepted insertions with fresh derived addresses and
positive timestamps reaches a state satisfying the writer invariant. -/
theorem insertAll_inv : ∀ (es : List (Event × TxIDs)), (allAddrs es).Nodup →
    (∀ p ∈ es, 0 < p.1.When) → ∃ st L, insertAll es = .ok st ∧ Inv es st L := by
  intro es
  induction es using List.reverseRecOn with
  | nil =>
    intro _ _
    refine ⟨State.empty, [], rfl, ?_⟩
    refine ⟨rfl, ⟨trivial, ?_⟩, by simp, trivial, trivial, ?_, ?_, ?_⟩
    · intro x hx
      simp at hx
    · intro x hx
      simp at hx
    · intro q hq
      simp [State.empty] at hq
    · intro q hq
      simp [State.empty] at hq
  | append_singleton es' x ih =>
    intro hnd hpos
    have hsplit : allAddrs (es' ++ [x]) = allAddrs es' ++ txAddrs x.2 := by
      simp [allAddrs]
    rw [hsplit] at hnd
    obtain ⟨hnd1, hnd2, hdisj⟩ := List.nodup_append.mp hnd
    obtain ⟨st, L, hins, hinv⟩ := ih hnd1 fun p hp => hpos p (List.mem_append_left _ hp)
    obtain ⟨e, ids⟩ := x
    obtain ⟨st', L', hstep, hinv'⟩ := insert_preserve hinv
      (hpos (e, ids) (List.mem_append_right _ (List.mem_cons_self _ _)))
      hnd2 (fun i hi hmem => hdisj hmem hi)
    refine ⟨st', L', ?_, hinv'⟩
    have hfold : insertAll (es' ++ [(e, ids)]) =
        (insertAll es').bind fun st0 => insertEvent st0 e.When e ids := by
      simp only [insertAll, List.foldl_append, List.foldl_cons, List.foldl_nil]
    rw [hfold, hins]
    exact hstep

/-- In a strictly when-increasing list, keeping the events at or after the
timestamp of the element at index k is exactly dropping the first k. -/
theorem sorted_filter_drop :
    ∀ (M : List Event) (k : Nat) (x : Event),
      M.Pairwise (fun u v => u.When < v.When) → M[k]? = some x →
      M.filter (fun e => decide (x.When ≤ e.When)) = M.drop k := by
  intro M
  induction M with
  | nil => intro k x _ h; simp at h
  | cons a rest ih =>
    intro k x hp h
    obtain ⟨ha, hrest⟩ := List.pairwise_cons.mp hp
    cases k with
    | zero =>
      obtain rfl : a = x := by simpa using h
      rw [List.drop_zero, List.filter_cons, if_pos (by simp)]
      congr 1
      rw [List.filter_eq_self]
      intro b hb
      have := ha b hb
      simp
      omega
    | succ k' =>
      have h' : rest[k']? = some x := by simpa using h
      have hxmem : x ∈ rest := by
        obtain ⟨hlt, rfl⟩ := List.getElem?_eq_some.mp h'
        exact List.getElem_mem hlt
      have hax : a.When < x.When := ha x hxmem
      rw [List.drop_succ_cons, List.filter_cons, if_neg (by simp; omega)]
      exact ih k' x hrest h'

/-- C4, amended: for every sequence of accepted insertions (with fresh
content-derived addresses and positive timestamps no newer than the search
time), if a search is truncated at `searchMax` and the full matched
sequence `M` of that window has strictly increasing timestamps, then
re-issuing the search with `from` set to the when of the last returned
event yields the slice of `M` starting at that very event: the last
returned event is repeated as the first element of the new page (since
`from` is inclusive), and after dropping that one duplicate the pages
tile `M` contiguously — no event is skipped and nothing else is
duplicated.  (Without strictly increasing timestamps events can be both
skipped and duplicated, as the counterexample shows.) -/
theorem C4_pagination_amended
    (es : List (Event × TxIDs)) (st : State) (now lo hi : Int) (topic : String)
    (max : Nat) (M evs : List Event) (last : Event)
    (hins : insertAll es = .ok st)
    (hfresh : (allAddrs es).Nodup)
    (hpos : ∀ p ∈ es, 0 < p.1.When)
    (hnow : ∀ p ∈ es, p.1.When ≤ now)
    (hhi : hi ≠ 0)
    (hmax : 1 ≤ max)
    (hfull : search st now (st.events.length + 1) ⟨false, lo, hi, topic⟩ = .ok ⟨M, false⟩)
    (hsorted : M.Pairwise (fun u v => u.When < v.When))
    (hsearch : search st now max ⟨false, lo, hi, topic⟩ = .ok ⟨evs, true⟩)
    (hlast : evs.getLast? = some last) :
    evs = M.take max ∧
    (M.drop (max - 1)).head? = some last ∧
    search st now max ⟨false, last.When, hi, topic⟩ =
      .ok ⟨(M.drop (max - 1)).take max, decide (max ≤ M.length - (max - 1))⟩ := by
  obtain ⟨st0, L, hins0, hinv⟩ := insertAll_inv es hfresh hpos
  obtain rfl : st = st0 := (Except.ok.inj (hins0.symm.trans hins)).symm
  have h0 : 0 ≤ now := by
    cases es with
    | nil =>
      exfalso
      obtain rfl : State.empty = st := by
        have h : Except.ok (ε := Err) State.empty = .ok st := hins
        injection h
      have hemp : search State.empty now max ⟨false, lo, hi, topic⟩ = .ok ⟨[], false⟩ := by
        simp [search, getLatestBucket, State.empty]
      rw [hemp] at hsearch
      simp at hsearch
    | cons p es' =>
      have h1 := hpos p (List.mem_cons_self _ _)
      have h2 := hnow p (List.mem_cons_self _ _)
      omega
  have hbb := inv_bendBound hinv hnow h0
  obtain ⟨Ms, hMs, hMsP⟩ := windowMatches_exists st lo hi topic L now hbb
  have hfullspec : search st now (st.events.length + 1) ⟨false, lo, hi, topic⟩ =
      .ok ⟨Ms.take (st.events.length + 1),
           decide (st.events.length + 1 ≤ Ms.length)⟩ :=
    search_spec hinv hbb hhi (by omega) hMs
  obtain ⟨hM1, hM2⟩ : M = Ms.take (st.events.length + 1) ∧
      false = decide (st.events.length + 1 ≤ Ms.length) := by
    have h := hfull.symm.trans hfullspec
    injection h with h
    injection h with h1 h2
    exact ⟨h1, h2⟩
  have hlenM : Ms.length < st.events.length + 1 := by
    by_contra hcon
    rw [decide_eq_true (by omega)] at hM2
    exact Bool.false_ne_true hM2
  obtain rfl : M = Ms := by
    rw [hM1, List.take_of_length_le (by omega)]
  have hspec := search_spec hinv hbb hhi hmax hMs
  obtain ⟨hE, hT⟩ : evs = M.take max ∧ true = decide (max ≤ M.length) := by
    have h := hsearch.symm.trans hspec
    injection h with h
    injection h with h1 h2
    exact ⟨h1, h2⟩
  have hmaxlen : max ≤ M.length := of_decide_eq_true hT.symm
  have hlast' : M[max - 1]? = some last := by
    rw [hE, List.getLast?_eq_getElem?] at hlast
    have hlentake : (M.take max).length = max := by
      rw [List.length_take]
      omega
    rw [hlentake, List.getElem?_take, if_pos (by omega)] at hlast
    exact hlast
  have hhead : (M.drop (max - 1)).head? = some last := by
    rw [List.head?_drop]
    exact hlast'
  refine ⟨hE, hhead, ?_⟩
  have hlastmem : last ∈ M := by
    obtain ⟨hlt, rfl⟩ := List.getElem?_eq_some.mp hlast'
    exact List.getElem_mem hlt
  have hlolast : lo ≤ last.When := by
    have hm := (hMsP last hlastmem).1
    simp [eventMatch] at hm
    tauto
  have hmono := windowMatches_mono st hi topic hlolast L now M hbb hMs
  have hdropeq : M.filter (fun e => decide (last.When ≤ e.When)) = M.drop (max - 1) :=
    sorted_filter_drop M (max - 1) last hsorted hlast'
  rw [hdropeq] at hmono
  have hspec2 := search_spec hinv hbb hhi hmax hmono
  rw [hspec2, List.length_drop]

theorem C4_pagination_amended_witness :
    search stW (10 * nanosPerSecond) 2 ⟨false, evW3.When, 8 * nanosPerSecond, ""⟩ =
      .ok ⟨[evW3, evW7], true⟩ := by
  have hins : insertAll [(evW1, idsA), (evW3, idsB), (evW7, idsC)] = .ok stW := rfl
  have hfull : search stW (10 * nanosPerSecond) (stW.events.length + 1)
      ⟨false, 0, 8 * nanosPerSecond, ""⟩ = .ok ⟨[evW1, evW3, evW7], false⟩ := rfl
  have hsearch : search stW (10 * nanosPerSecond) 2 ⟨false, 0, 8 * nanosPerSecond, ""⟩ =
      .ok ⟨[evW1, evW3], true⟩ := rfl
  have h := C4_pagination_amended [(evW1, idsA), (evW3, idsB), (evW7, idsC)] stW
    (10 * nanosPerSecond) 0 (8 * nanosPerSecond) "" 2
    [evW1, evW3, evW7] [evW1, evW3] evW3
    hins (by decide) (by decide) (by decide) (by decide) (by omega)
    hfull (by decide) hsearch rfl
  exact h.2.2.trans (by rfl)

end EventLog
